import Mathlib

/-!
Verification of the OCR normalization pipeline of `src/PythonOCR/ocr_service.py`.

Strings are modelled as `List Char` (`Str`).  Python's `float` confidence
arithmetic is modelled over `ℚ`.  The two external symbolic-parser
collaborators (`sympy.parsing.latex.parse_latex` and
`sympy.parsing.sympy_parser.parse_expr`, including the `ast`-driven
`local_dict` setup that only feeds `parse_expr`) are modelled as function
parameters returning `Option SymExpr`; the optional LLM standardizer is a
function parameter returning `Option Str`.
-/

set_option maxRecDepth 100000

abbrev Str := List Char

/-- Number of occurrences of a character in a string (Python `str.count`). -/
def countC (a : Char) : Str → Nat
  | [] => 0
  | c :: l => (if c = a then 1 else 0) + countC a l

theorem countC_append (a : Char) (u v : Str) :
    countC a (u ++ v) = countC a u + countC a v := by
  induction u with
  | nil => simp [countC]
  | cons c rest ih => simp [countC, ih]; omega

/-- Opening delimiters, `pairs.values()` in `balance_parentheses`
(ocr_service.py line 427). -/
def isOpenDelim (c : Char) : Bool := c == '(' || c == '[' || c == '{'

/-- Closing delimiters, `pairs.keys()` in `balance_parentheses`. -/
def isCloseDelim (c : Char) : Bool := c == ')' || c == ']' || c == '}'

/-- `pairs[c]`: the opening delimiter corresponding to closing delimiter `c`
(only ever applied to closing delimiters). -/
def openOf (c : Char) : Char := if c == ')' then '(' else if c == ']' then '[' else '{'

/-- `rev_pairs[c]` (ocr_service.py line 459): the closing delimiter
corresponding to opening delimiter `c` (only ever applied to opening ones). -/
def closeOf (c : Char) : Char := if c == '(' then ')' else if c == '[' then ']' else '}'

/-- Pass 1 of `balance_parentheses` (ocr_service.py lines 431-443): scan with a
stack of open delimiters; a closing delimiter that matches the stack top pops
it and is kept, any other closing delimiter is marked in `to_remove` and
deleted afterwards.  Deleting the marked positions afterwards is the same as
dropping those characters during the scan, because a marked closer leaves the
stack untouched. -/
def removeUnmatchedClosers (stack : List Char) : Str → Str
  | [] => []
  | c :: rest =>
    if isOpenDelim c then c :: removeUnmatchedClosers (c :: stack) rest
    else if isCloseDelim c then
      match stack with
      | top :: stk =>
        if top == openOf c then c :: removeUnmatchedClosers stk rest
        else removeUnmatchedClosers (top :: stk) rest
      | [] => removeUnmatchedClosers [] rest
    else c :: removeUnmatchedClosers stack rest

/-- Pass 2 stack recomputation of `balance_parentheses` (lines 449-456): the
stack of still-open delimiters left after scanning, most recent first. -/
def scanOpenStack (stack : List Char) : Str → List Char
  | [] => stack
  | c :: rest =>
    if isOpenDelim c then scanOpenStack (c :: stack) rest
    else if isCloseDelim c then
      match stack with
      | top :: stk =>
        if top == openOf c then scanOpenStack stk rest
        else scanOpenStack (top :: stk) rest
      | [] => scanOpenStack [] rest
    else scanOpenStack stack rest

/-- `balance_parentheses` (ocr_service.py lines 416-463): remove unmatched
closing delimiters, then append the closers of the still-open delimiters in
reverse order of opening (`for char, i in reversed(stack)`; our stack keeps
the most recently opened delimiter at the head, so this is a plain map). -/
def balance_parentheses (text : Str) : Str :=
  if text = [] then text
  else
    removeUnmatchedClosers [] text ++
      (scanOpenStack [] (removeUnmatchedClosers [] text)).map closeOf

theorem isOpenDelim_cases {c : Char} (h : isOpenDelim c = true) :
    c = '(' ∨ c = '[' ∨ c = '{' := by
  simp only [isOpenDelim, Bool.or_eq_true, beq_iff_eq] at h
  tauto

theorem isCloseDelim_cases {c : Char} (h : isCloseDelim c = true) :
    c = ')' ∨ c = ']' ∨ c = '}' := by
  simp only [isCloseDelim, Bool.or_eq_true, beq_iff_eq] at h
  tauto

theorem closeOf_isClose {k : Char} (hk : isOpenDelim k = true) :
    isCloseDelim (closeOf k) = true := by
  rcases isOpenDelim_cases hk with h | h | h <;> subst h <;> decide

theorem open_ne_close {c k : Char} (hc : isOpenDelim c = true)
    (hk : isCloseDelim k = true) : c ≠ k := by
  rcases isOpenDelim_cases hc with h | h | h <;>
    rcases isCloseDelim_cases hk with h2 | h2 | h2 <;> subst h <;> subst h2 <;> decide

theorem openOf_closeOf_iff {c k : Char} (hc : isCloseDelim c = true)
    (hk : isOpenDelim k = true) : openOf c = k ↔ closeOf k = c := by
  rcases isCloseDelim_cases hc with h | h | h <;>
    rcases isOpenDelim_cases hk with h2 | h2 | h2 <;> subst h <;> subst h2 <;> decide

/-- The stack evolves identically in pass 1 and in pass 2's rescan: a removed
closer never touched the stack. -/
theorem scan_removeUnmatched (l : Str) : ∀ st,
    scanOpenStack st (removeUnmatchedClosers st l) = scanOpenStack st l := by
  induction l with
  | nil => intro st; rfl
  | cons c rest ih =>
    intro st
    by_cases ho : isOpenDelim c
    · simp only [removeUnmatchedClosers, scanOpenStack, ho, if_pos, ih]
    · by_cases hc : isCloseDelim c
      · cases st with
        | nil =>
          simp only [removeUnmatchedClosers, scanOpenStack, ho, hc, if_neg, if_pos,
            Bool.not_eq_true] at *
          exact ih []
        | cons top stk =>
          by_cases hm : top == openOf c
          · simp only [removeUnmatchedClosers, scanOpenStack, ho, hc, hm, if_pos, if_neg,
              Bool.not_eq_true] at *
            exact ih stk
          · simp only [removeUnmatchedClosers, scanOpenStack, ho, hc, hm, if_pos, if_neg,
              Bool.not_eq_true] at *
            exact ih (top :: stk)
      · simp only [removeUnmatchedClosers, scanOpenStack, ho, hc, if_neg,
          Bool.not_eq_true] at *
        exact ih st

/-- Counting invariant for pass 1: for each opening delimiter kind `k`, the
kept string's `k`-count plus the `k`-count already on the stack equals the
kept string's `closeOf k`-count plus the `k`-count remaining on the final
stack.  (Every kept closer popped exactly one matching opener.) -/
theorem count_removeUnmatched (k : Char) (hk : isOpenDelim k = true) (l : Str) : ∀ st,
    countC k (removeUnmatchedClosers st l) + countC k st =
      countC (closeOf k) (removeUnmatchedClosers st l) + countC k (scanOpenStack st l) := by
  induction l with
  | nil => intro st; simp [removeUnmatchedClosers, scanOpenStack, countC]
  | cons c rest ih =>
    intro st
    by_cases ho : isOpenDelim c = true
    · have e1 : removeUnmatchedClosers st (c :: rest) =
          c :: removeUnmatchedClosers (c :: st) rest := by
        simp [removeUnmatchedClosers, ho]
      have e2 : scanOpenStack st (c :: rest) = scanOpenStack (c :: st) rest := by
        simp [scanOpenStack, ho]
      have hkc : ¬ (c = closeOf k) := fun h => open_ne_close ho (closeOf_isClose hk) h
      rw [e1, e2]
      have hih := ih (c :: st)
      by_cases hck : c = k
      · subst hck; simp [countC, hkc] at hih ⊢; omega
      · simp [countC, hkc, hck] at hih ⊢; omega
    · by_cases hc : isCloseDelim c = true
      · have hck : ¬ (c = k) := fun h => open_ne_close hk hc h.symm
        cases st with
        | nil =>
          have e1 : removeUnmatchedClosers [] (c :: rest) =
              removeUnmatchedClosers [] rest := by
            simp [removeUnmatchedClosers, ho, hc]
          have e2 : scanOpenStack [] (c :: rest) = scanOpenStack [] rest := by
            simp [scanOpenStack, ho, hc]
          rw [e1, e2]; exact ih []
        | cons top stk =>
          by_cases hm : top = openOf c
          · have hmb : (top == openOf c) = true := beq_iff_eq.mpr hm
            have e1 : removeUnmatchedClosers (top :: stk) (c :: rest) =
                c :: removeUnmatchedClosers stk rest := by
              simp [removeUnmatchedClosers, ho, hc, hmb]
            have e2 : scanOpenStack (top :: stk) (c :: rest) = scanOpenStack stk rest := by
              simp [scanOpenStack, ho, hc, hmb]
            rw [e1, e2]
            have hiff := openOf_closeOf_iff hc hk
            have hih := ih stk
            by_cases hek : c = closeOf k
            · have htk : top = k := by rw [hm, hiff.2 hek.symm]
              have hzz : ¬ (closeOf k = k) := fun h =>
                open_ne_close hk (closeOf_isClose hk) h.symm
              simp [countC, hck, hek, htk, hzz] at hih ⊢; omega
            · have htk : ¬ (top = k) := by
                rw [hm]; intro h; exact hek (hiff.1 h).symm
              simp [countC, hck, hek, htk] at hih ⊢; omega
          · have hmb : (top == openOf c) = false := by
              simp [beq_iff_eq]; exact hm
            have e1 : removeUnmatchedClosers (top :: stk) (c :: rest) =
                removeUnmatchedClosers (top :: stk) rest := by
              simp [removeUnmatchedClosers, ho, hc, hmb]
            have e2 : scanOpenStack (top :: stk) (c :: rest) =
                scanOpenStack (top :: stk) rest := by
              simp [scanOpenStack, ho, hc, hmb]
            rw [e1, e2]; exact ih (top :: stk)
      · have e1 : removeUnmatchedClosers st (c :: rest) =
            c :: removeUnmatchedClosers st rest := by
          simp [removeUnmatchedClosers, ho, hc]
        have e2 : scanOpenStack st (c :: rest) = scanOpenStack st rest := by
          simp [scanOpenStack, ho, hc]
        rw [e1, e2]
        have hck : ¬ (c = k) := by intro h; subst h; exact ho hk
        have hcc : ¬ (c = closeOf k) := by
          intro h; rw [h] at hc; exact hc (closeOf_isClose hk)
        have hih := ih st
        simp [countC, hck, hcc]; omega

/-- Every element pushed on the scan stack is an opening delimiter. -/
theorem scanOpenStack_open (l : Str) : ∀ st, (∀ x ∈ st, isOpenDelim x = true) →
    ∀ x ∈ scanOpenStack st l, isOpenDelim x = true := by
  induction l with
  | nil => intro st h; exact h
  | cons c rest ih =>
    intro st hst
    by_cases ho : isOpenDelim c
    · simp only [scanOpenStack, ho, if_pos]
      refine ih (c :: st) ?_
      intro x hx
      rcases List.mem_cons.1 hx with h | h
      · subst h; exact ho
      · exact hst x h
    · by_cases hc : isCloseDelim c
      · cases st with
        | nil =>
          simp only [scanOpenStack, ho, hc, if_neg, if_pos, Bool.not_eq_true]
          exact ih [] (by intro x hx; cases hx)
        | cons top stk =>
          by_cases hm : top == openOf c
          · simp only [scanOpenStack, ho, hc, hm, if_pos, if_neg, Bool.not_eq_true]
            exact ih stk (fun x hx => hst x (List.mem_cons_of_mem _ hx))
          · simp only [scanOpenStack, ho, hc, hm, if_pos, if_neg, Bool.not_eq_true]
            exact ih (top :: stk) hst
      · simp only [scanOpenStack, ho, hc, if_neg, Bool.not_eq_true]
        exact ih st hst

/-- An opening delimiter never occurs among appended closers. -/
theorem countC_open_map_closeOf (k : Char) (hk : isOpenDelim k = true) (s : List Char) :
    countC k (s.map closeOf) = 0 := by
  induction s with
  | nil => rfl
  | cons c rest ih =>
    have : ¬ (closeOf c = k) := by
      intro h
      have hcl : isCloseDelim (closeOf c) = true := by
        unfold closeOf
        by_cases h1 : c == '(' <;> by_cases h2 : c == '[' <;> simp [h1, h2] <;> decide
      rw [h] at hcl
      exact open_ne_close hk hcl rfl
    simp [countC, List.map, ih, beq_iff_eq, this]

/-- Counting the matching closers among the appended closers of an all-open
stack gives exactly the stack's count of that opener. -/
theorem countC_closeOf_map (k : Char) (hk : isOpenDelim k = true) (s : List Char)
    (hs : ∀ x ∈ s, isOpenDelim x = true) :
    countC (closeOf k) (s.map closeOf) = countC k s := by
  induction s with
  | nil => rfl
  | cons c rest ih =>
    have hc : isOpenDelim c = true := hs c (List.mem_cons_self c rest)
    have hinj : (closeOf c = closeOf k) ↔ (c = k) := by
      rcases isOpenDelim_cases hc with h | h | h <;>
        rcases isOpenDelim_cases hk with h2 | h2 | h2 <;> subst h <;> subst h2 <;> decide
    have := ih (fun x hx => hs x (List.mem_cons_of_mem _ hx))
    by_cases hck : c = k
    · simp [countC, List.map, beq_iff_eq, hinj, hck, this]
    · simp [countC, List.map, beq_iff_eq, hinj, hck, this]

/-- Count equality of `balance_parentheses` output for one delimiter kind. -/
theorem balance_counts (k : Char) (hk : isOpenDelim k = true) (t : Str) :
    countC k (balance_parentheses t) = countC (closeOf k) (balance_parentheses t) := by
  unfold balance_parentheses
  by_cases ht : t = []
  · simp [ht, countC]
  · simp only [ht, if_neg, not_false_iff]
    have hmain := count_removeUnmatched k hk t []
    simp only [countC] at hmain
    have hscan := scan_removeUnmatched t []
    have hopen : ∀ x ∈ scanOpenStack [] (removeUnmatchedClosers [] t), isOpenDelim x = true := by
      intro x hx
      exact scanOpenStack_open (removeUnmatchedClosers [] t) [] (by intro y hy; cases hy) x hx
    rw [countC_append, countC_append]
    rw [countC_open_map_closeOf k hk]
    rw [countC_closeOf_map k hk _ hopen]
    rw [hscan]
    omega

/-- C2.  For every input string, the output of `balance_parentheses` has an
equal number of opening and closing delimiters for each of the three bracket
kinds. -/
theorem claim_C2_balance_counts (t : Str) :
    countC '(' (balance_parentheses t) = countC ')' (balance_parentheses t) ∧
    countC '[' (balance_parentheses t) = countC ']' (balance_parentheses t) ∧
    countC '{' (balance_parentheses t) = countC '}' (balance_parentheses t) := by
  refine ⟨?_, ?_, ?_⟩
  · exact balance_counts '(' (by decide) t
  · exact balance_counts '[' (by decide) t
  · exact balance_counts '{' (by decide) t

/-- Predicate from claim C9: scanning with a stack, every closing delimiter
matches the current innermost open delimiter of its kind, and no delimiters
remain open at end-of-string. -/
def balancedFrom (stack : List Char) : Str → Bool
  | [] => stack.isEmpty
  | c :: rest =>
    if isOpenDelim c then balancedFrom (c :: stack) rest
    else if isCloseDelim c then
      match stack with
      | top :: stk => top == openOf c && balancedFrom stk rest
      | [] => false
    else balancedFrom stack rest

/-- On a balanced string, pass 1 removes nothing. -/
theorem removeUnmatched_of_balanced (l : Str) : ∀ st, balancedFrom st l = true →
    removeUnmatchedClosers st l = l := by
  induction l with
  | nil => intro st _; rfl
  | cons c rest ih =>
    intro st hb
    by_cases ho : isOpenDelim c = true
    · simp only [balancedFrom, ho, if_pos] at hb
      simp [removeUnmatchedClosers, ho, ih (c :: st) hb]
    · by_cases hc : isCloseDelim c = true
      · cases st with
        | nil => simp [balancedFrom, ho, hc] at hb
        | cons top stk =>
          simp only [balancedFrom, ho, hc, if_neg, if_pos, Bool.not_eq_true,
            Bool.and_eq_true] at hb
          simp [removeUnmatchedClosers, ho, hc, hb.1, ih stk hb.2]
      · simp only [balancedFrom, ho, hc, if_neg, Bool.not_eq_true] at hb
        simp [removeUnmatchedClosers, ho, hc, ih st hb]

/-- On a balanced string, the pass-2 rescan ends with an empty stack. -/
theorem scanOpenStack_of_balanced (l : Str) : ∀ st, balancedFrom st l = true →
    scanOpenStack st l = [] := by
  induction l with
  | nil =>
    intro st hb
    simp only [balancedFrom, List.isEmpty_iff] at hb
    simpa [scanOpenStack] using hb
  | cons c rest ih =>
    intro st hb
    by_cases ho : isOpenDelim c = true
    · simp only [balancedFrom, ho, if_pos] at hb
      simp [scanOpenStack, ho, ih (c :: st) hb]
    · by_cases hc : isCloseDelim c = true
      · cases st with
        | nil => simp [balancedFrom, ho, hc] at hb
        | cons top stk =>
          simp only [balancedFrom, ho, hc, if_neg, if_pos, Bool.not_eq_true,
            Bool.and_eq_true] at hb
          simp [scanOpenStack, ho, hc, hb.1, ih stk hb.2]
      · simp only [balancedFrom, ho, hc, if_neg, Bool.not_eq_true] at hb
        simp [scanOpenStack, ho, hc, ih st hb]

/-- C9.  For every input string that is already balanced (each closing
delimiter matches the current innermost open delimiter of its kind and no
delimiters remain open at end-of-string), `balance_parentheses` returns the
input unchanged. -/
theorem claim_C9_balanced_identity (t : Str) (h : balancedFrom [] t = true) :
    balance_parentheses t = t := by
  unfold balance_parentheses
  by_cases ht : t = []
  · simp [ht]
  · simp only [ht, if_neg, not_false_iff]
    rw [removeUnmatched_of_balanced t [] h, scanOpenStack_of_balanced t [] h]
    simp

/-- Witness for C9 at the concrete balanced input `(a[b]{c})`. -/
theorem claim_C9_witness :
    balancedFrom [] ['(', 'a', '[', 'b', ']', '{', 'c', '}', ')'] = true ∧
    balance_parentheses ['(', 'a', '[', 'b', ']', '{', 'c', '}', ')'] =
      ['(', 'a', '[', 'b', ']', '{', 'c', '}', ')'] := by
  constructor
  · decide
  · exact claim_C9_balanced_identity _ (by decide)

theorem close_not_open {c : Char} (h : isCloseDelim c = true) : isOpenDelim c = false := by
  rcases isCloseDelim_cases h with h1 | h1 | h1 <;> subst h1 <;> decide

theorem openOf_closeOf {s : Char} (h : isOpenDelim s = true) : openOf (closeOf s) = s := by
  rcases isOpenDelim_cases h with h1 | h1 | h1 <;> subst h1 <;> decide

/-- Pass 1 splits over append: the second part is scanned with the stack left
by the first part. -/
theorem removeUnmatched_append (a : Str) : ∀ (b : Str) (st : List Char),
    removeUnmatchedClosers st (a ++ b) =
      removeUnmatchedClosers st a ++ removeUnmatchedClosers (scanOpenStack st a) b := by
  induction a with
  | nil => intro b st; rfl
  | cons c rest ih =>
    intro b st
    by_cases ho : isOpenDelim c = true
    · simp [removeUnmatchedClosers, scanOpenStack, ho, ih]
    · by_cases hc : isCloseDelim c = true
      · cases st with
        | nil => simp [removeUnmatchedClosers, scanOpenStack, ho, hc, ih]
        | cons top stk =>
          by_cases hm : top = openOf c
          · have hmb : (top == openOf c) = true := beq_iff_eq.mpr hm
            simp [removeUnmatchedClosers, scanOpenStack, ho, hc, hmb, ih]
          · have hmb : (top == openOf c) = false := by simp [beq_iff_eq]; exact hm
            simp [removeUnmatchedClosers, scanOpenStack, ho, hc, hmb, ih]
      · simp [removeUnmatchedClosers, scanOpenStack, ho, hc, ih]

theorem scanOpenStack_append (a : Str) : ∀ (b : Str) (st : List Char),
    scanOpenStack st (a ++ b) = scanOpenStack (scanOpenStack st a) b := by
  induction a with
  | nil => intro b st; rfl
  | cons c rest ih =>
    intro b st
    by_cases ho : isOpenDelim c = true
    · simp [scanOpenStack, ho, ih]
    · by_cases hc : isCloseDelim c = true
      · cases st with
        | nil => simp [scanOpenStack, ho, hc, ih]
        | cons top stk =>
          by_cases hm : top = openOf c
          · have hmb : (top == openOf c) = true := beq_iff_eq.mpr hm
            simp [scanOpenStack, ho, hc, hmb, ih]
          · have hmb : (top == openOf c) = false := by simp [beq_iff_eq]; exact hm
            simp [scanOpenStack, ho, hc, hmb, ih]
      · simp [scanOpenStack, ho, hc, ih]

/-- Pass 1 is idempotent (with the same starting stack). -/
theorem removeUnmatched_idem (l : Str) : ∀ st,
    removeUnmatchedClosers st (removeUnmatchedClosers st l) = removeUnmatchedClosers st l := by
  induction l with
  | nil => intro st; rfl
  | cons c rest ih =>
    intro st
    by_cases ho : isOpenDelim c = true
    · simp [removeUnmatchedClosers, ho, ih]
    · by_cases hc : isCloseDelim c = true
      · cases st with
        | nil => simp [removeUnmatchedClosers, ho, hc, ih]
        | cons top stk =>
          by_cases hm : top = openOf c
          · have hmb : (top == openOf c) = true := beq_iff_eq.mpr hm
            simp [removeUnmatchedClosers, ho, hc, hmb, ih]
          · have hmb : (top == openOf c) = false := by simp [beq_iff_eq]; exact hm
            simp [removeUnmatchedClosers, ho, hc, hmb, ih]
      · simp [removeUnmatchedClosers, ho, hc, ih]

/-- Strings without delimiters pass through both passes untouched. -/
theorem removeUnmatched_nodelim (l : Str)
    (h : ∀ c ∈ l, isOpenDelim c = false ∧ isCloseDelim c = false) : ∀ st,
    removeUnmatchedClosers st l = l ∧ scanOpenStack st l = st := by
  induction l with
  | nil => intro st; exact ⟨rfl, rfl⟩
  | cons c rest ih =>
    intro st
    have hc := h c (List.mem_cons_self c rest)
    have hrest := ih (fun x hx => h x (List.mem_cons_of_mem _ hx)) st
    simp [removeUnmatchedClosers, scanOpenStack, hc.1, hc.2, hrest.1, hrest.2]

/-- The appended closers of an all-open stack are consumed by a rescan that
starts from that same stack, popping it entirely. -/
theorem closers_rescan (S : List Char) (hS : ∀ x ∈ S, isOpenDelim x = true) :
    removeUnmatchedClosers S (S.map closeOf) = S.map closeOf ∧
    scanOpenStack S (S.map closeOf) = [] := by
  induction S with
  | nil => exact ⟨rfl, rfl⟩
  | cons s S2 ih =>
    have hs : isOpenDelim s = true := hS s (List.mem_cons_self s S2)
    have h2 := ih (fun x hx => hS x (List.mem_cons_of_mem _ hx))
    have hcl : isCloseDelim (closeOf s) = true := closeOf_isClose hs
    have hop : isOpenDelim (closeOf s) = false := close_not_open hcl
    have hoo : (s == openOf (closeOf s)) = true := beq_iff_eq.mpr (openOf_closeOf hs).symm
    simp [removeUnmatchedClosers, scanOpenStack, List.map, hop, hcl, hoo, h2.1, h2.2]

/-- The output of `balance_parentheses` is stable: pass 1 removes nothing from
it and a rescan of it ends with an empty stack. -/
theorem balance_output_stable (w : Str) :
    removeUnmatchedClosers [] (balance_parentheses w) = balance_parentheses w ∧
    scanOpenStack [] (balance_parentheses w) = [] := by
  unfold balance_parentheses
  by_cases hw : w = []
  · simp [hw, removeUnmatchedClosers, scanOpenStack]
  · simp only [hw, if_neg, not_false_iff]
    have hSopen : ∀ x ∈ scanOpenStack [] (removeUnmatchedClosers [] w),
        isOpenDelim x = true :=
      fun x hx => scanOpenStack_open _ [] (by intro y hy; cases hy) x hx
    have hcl := closers_rescan _ hSopen
    constructor
    · rw [removeUnmatched_append, removeUnmatched_idem, scan_removeUnmatched] at *
      rw [hcl.1]
    · rw [scanOpenStack_append, hcl.2]


/-- Python whitespace for `str.strip()` / `str.split()` (ASCII part). -/
def isPyWS (c : Char) : Bool :=
  c == ' ' || c == '\t' || c == '\n' || c == '\x0b' || c == '\x0c' || c == '\r'

/-- Python `str.strip()`: drop leading and trailing whitespace. -/
def stripWS (l : Str) : Str :=
  ((l.dropWhile isPyWS).reverse.dropWhile isPyWS).reverse

theorem pyWS_nodelim {c : Char} (h : isPyWS c = true) :
    isOpenDelim c = false ∧ isCloseDelim c = false := by
  simp only [isPyWS, Bool.or_eq_true, beq_iff_eq] at h
  rcases h with ((((h | h) | h) | h) | h) | h <;> subst h <;> exact ⟨rfl, rfl⟩

/-- `stripWS` decomposes a string into an all-whitespace prefix, the stripped
core, and an all-whitespace suffix. -/
theorem stripWS_decomp (t : Str) :
    ∃ a b, t = a ++ stripWS t ++ b ∧
      (∀ c ∈ a, isPyWS c = true) ∧ (∀ c ∈ b, isPyWS c = true) := by
  refine ⟨t.takeWhile isPyWS, ((t.dropWhile isPyWS).reverse.takeWhile isPyWS).reverse,
    ?_, ?_, ?_⟩
  · conv_lhs => rw [← List.takeWhile_append_dropWhile (p := isPyWS) (l := t)]
    rw [List.append_assoc]
    congr 1
    calc t.dropWhile isPyWS
        = (t.dropWhile isPyWS).reverse.reverse := (List.reverse_reverse _).symm
      _ = (((t.dropWhile isPyWS).reverse.takeWhile isPyWS) ++
            ((t.dropWhile isPyWS).reverse.dropWhile isPyWS)).reverse := by
          rw [List.takeWhile_append_dropWhile]
      _ = ((t.dropWhile isPyWS).reverse.dropWhile isPyWS).reverse ++
            ((t.dropWhile isPyWS).reverse.takeWhile isPyWS).reverse := by
          rw [List.reverse_append]
      _ = stripWS t ++ ((t.dropWhile isPyWS).reverse.takeWhile isPyWS).reverse := rfl
  · intro c hc; exact List.mem_takeWhile_imp hc
  · intro c hc
    rw [List.mem_reverse] at hc
    exact List.mem_takeWhile_imp hc

/-- The stripped core of a pass-stable string is itself pass-stable. -/
theorem stripWS_stable (t : Str)
    (hr : removeUnmatchedClosers [] t = t) (hs : scanOpenStack [] t = []) :
    removeUnmatchedClosers [] (stripWS t) = stripWS t ∧
      scanOpenStack [] (stripWS t) = [] := by
  obtain ⟨a, b, hdec, hA, hB⟩ := stripWS_decomp t
  have hAnd : ∀ c ∈ a, isOpenDelim c = false ∧ isCloseDelim c = false :=
    fun c hc => pyWS_nodelim (hA c hc)
  have hBnd : ∀ c ∈ b, isOpenDelim c = false ∧ isCloseDelim c = false :=
    fun c hc => pyWS_nodelim (hB c hc)
  have hrm : ∀ st, removeUnmatchedClosers st (a ++ (stripWS t ++ b)) =
      a ++ (removeUnmatchedClosers st (stripWS t) ++ b) := by
    intro st
    rw [removeUnmatched_append, (removeUnmatched_nodelim a hAnd st).1,
      (removeUnmatched_nodelim a hAnd st).2]
    rw [removeUnmatched_append,
      (removeUnmatched_nodelim b hBnd (scanOpenStack st (stripWS t))).1]
  have hsc : ∀ st, scanOpenStack st (a ++ (stripWS t ++ b)) =
      scanOpenStack st (stripWS t) := by
    intro st
    rw [scanOpenStack_append, (removeUnmatched_nodelim a hAnd st).2,
      scanOpenStack_append,
      (removeUnmatched_nodelim b hBnd (scanOpenStack st (stripWS t))).2]
  rw [hdec, List.append_assoc] at hr hs
  constructor
  · have := hrm []
    rw [hr] at this
    have h2 : removeUnmatchedClosers [] (stripWS t) ++ b = stripWS t ++ b :=
      List.append_cancel_left this.symm
    exact List.append_cancel_right h2
  · rw [hsc [] ] at hs
    exact hs

/-- A pass-stable string is a fixed point of `balance_parentheses`. -/
theorem balance_fixed (t : Str)
    (hr : removeUnmatchedClosers [] t = t) (hs : scanOpenStack [] t = []) :
    balance_parentheses t = t := by
  unfold balance_parentheses
  by_cases ht : t = []
  · simp [ht]
  · simp only [ht, if_neg, not_false_iff]
    rw [hr, hs]
    simp

/-- Rebalancing the stripped output of the balancer is a no-op: this is why
`clean_latex_output`, which ends in balancing followed by `strip()`, produces
strings on which `balance_parentheses` acts as the identity. -/
theorem balance_stripWS_balance (w : Str) :
    balance_parentheses (stripWS (balance_parentheses w)) =
      stripWS (balance_parentheses w) := by
  obtain ⟨h1, h2⟩ := balance_output_stable w
  obtain ⟨h3, h4⟩ := stripWS_stable _ h1 h2
  exact balance_fixed _ h3 h4

/-- `startsWithL pat s`: `s` begins with `pat`. -/
def startsWithL : Str → Str → Bool
  | [], _ => true
  | _ :: _, [] => false
  | p :: ps, c :: cs => p == c && startsWithL ps cs

/-- Python's substring test `pat in s`. -/
def containsSub (pat : Str) : Str → Bool
  | [] => pat.isEmpty
  | c :: rest => startsWithL pat (c :: rest) || containsSub pat rest

/-- Python `str.split(sep)` for a non-empty separator, fuelled by the input
length (each step consumes at least one character, so the fuel never runs
out). -/
def splitOnSubF (sep : Str) : Nat → Str → List Str
  | _, [] => [[]]
  | 0, s => [s]
  | fuel+1, c :: rest =>
    if sep ≠ [] ∧ startsWithL sep (c :: rest) = true then
      [] :: splitOnSubF sep fuel ((c :: rest).drop sep.length)
    else
      match splitOnSubF sep fuel rest with
      | t :: ts => (c :: t) :: ts
      | [] => [[c]]

def splitOnSub (sep s : Str) : List Str := splitOnSubF sep s.length s

/-- The row-break marker `r'\\'` (two backslash characters). -/
def rowBreakTok : Str := ['\\', '\\']

def eqTok : Str := ['=']

def congTok : Str := ['\\', 'c', 'o', 'n', 'g']

def mathrmTok : Str := ['\\', 'm', 'a', 't', 'h', 'r', 'm']

/-- Per-line score of the best-line heuristic in `clean_latex_output`
(ocr_service.py lines 334-345): `+5` for an equals sign or `\cong`, `-5` for a
short `\mathrm` fragment, `-5` for a line shorter than three characters. -/
def lineScore (l : Str) : Int :=
  (if containsSub eqTok l || containsSub congTok l then 5 else 0)
  + (if containsSub mathrmTok l = true ∧ l.length < 20 then -5 else 0)
  + (if l.length < 3 then -5 else 0)

/-- One step of the best-line selection loop: update when strictly better
(`if score > max_score`). -/
def pickStep (acc : Str × Int) (line : Str) : Str × Int :=
  if lineScore line > acc.2 then (line, lineScore line) else acc

/-- The best-line selection loop of `clean_latex_output` (lines 331-350):
`best_line = lines[0]`, `max_score = -1`, scan all lines, keep the first
strict improvement. -/
def pickBestLine (lines : List Str) : Str :=
  (lines.foldl pickStep (lines.headD [], (-1 : Int))).1

/-- `[line.strip() for line in cleaned.split(r'\\') if line.strip()]`. -/
def lineSegments (c : Str) : List Str :=
  ((splitOnSub rowBreakTok c).map stripWS).filter (fun l => !l.isEmpty)

/-- Step 2 of `clean_latex_output` (lines 327-350): when the text contains a
row-break marker, split, strip, drop empties, and pick the best line. -/
def selectBestLine (c : Str) : Str :=
  if containsSub rowBreakTok c then
    if lineSegments c ≠ [] then pickBestLine (lineSegments c) else c
  else c

theorem startsWithL_length {pat s : Str} (h : startsWithL pat s = true) :
    pat.length ≤ s.length := by
  induction pat generalizing s with
  | nil => simp
  | cons p ps ih =>
    cases s with
    | nil => simp [startsWithL] at h
    | cons c cs =>
      simp only [startsWithL, Bool.and_eq_true] at h
      have := ih h.2
      simp [List.length_cons]
      omega

theorem containsSub_length {pat s : Str} (h : containsSub pat s = true) :
    pat.length ≤ s.length := by
  induction s with
  | nil =>
    simp only [containsSub, List.isEmpty_iff] at h
    simp [h]
  | cons c rest ih =>
    simp only [containsSub, Bool.or_eq_true] at h
    rcases h with h | h
    · exact startsWithL_length h
    · have := ih h
      simp [List.length_cons]
      omega

/-- A line's score is always one of `5`, `0`, `-5`: the two `-5` penalties can
never fire together because a `\mathrm` occurrence needs at least 7
characters. -/
theorem lineScore_cases (l : Str) :
    lineScore l = 5 ∨ lineScore l = 0 ∨ lineScore l = -5 := by
  unfold lineScore
  by_cases he : (containsSub eqTok l || containsSub congTok l) = true
  · by_cases hm : containsSub mathrmTok l = true ∧ l.length < 20
    · have h7 := containsSub_length hm.1
      simp only [mathrmTok, List.length_cons, List.length_nil] at h7
      have h3 : ¬ (l.length < 3) := by omega
      simp [he, hm, h3]
    · by_cases hs : l.length < 3
      · simp [he, hm, hs]
      · simp [he, hm, hs]
  · by_cases hm : containsSub mathrmTok l = true ∧ l.length < 20
    · have h7 := containsSub_length hm.1
      simp only [mathrmTok, List.length_cons, List.length_nil] at h7
      have h3 : ¬ (l.length < 3) := by omega
      simp [he, hm, h3]
    · by_cases hs : l.length < 3
      · simp [he, hm, hs]
      · simp [he, hm, hs]

/-- Invariant of the best-line fold: either nothing has beaten the initial
`-1` yet (then every processed line scored `-5`), or the accumulator holds the
first line achieving the running maximum. -/
def pickInv (l0 : Str) (P : List Str) (acc : Str × Int) : Prop :=
  (acc = (l0, -1) ∧ ∀ l ∈ P, lineScore l = -5)
  ∨ (∃ pre post, P = pre ++ acc.1 :: post ∧ acc.2 = lineScore acc.1 ∧ 0 ≤ acc.2 ∧
      (∀ l ∈ pre, lineScore l < acc.2) ∧ (∀ l ∈ post, lineScore l ≤ acc.2))

theorem pick_fold_inv (l0 : Str) (todo : List Str) : ∀ (P : List Str) (acc : Str × Int),
    pickInv l0 P acc → pickInv l0 (P ++ todo) (todo.foldl pickStep acc) := by
  induction todo with
  | nil => intro P acc h; simpa using h
  | cons x rest ih =>
    intro P acc h
    have hstep : pickInv l0 (P ++ [x]) (pickStep acc x) := by
      by_cases hx : acc.2 < lineScore x
      · have hps : pickStep acc x = (x, lineScore x) := by
          unfold pickStep; rw [if_pos hx]
        rw [hps]
        right
        rcases h with ⟨hacc, hall⟩ | ⟨pre, post, hP, hsc, hnn, hpre, hpost⟩
        · have hx2 : (-1 : Int) < lineScore x := by rw [hacc] at hx; simpa using hx
          refine ⟨P, [], by simp, rfl, ?_, ?_, by simp⟩
          · show (0 : Int) ≤ lineScore x
            rcases lineScore_cases x with h5 | h0 | hm5 <;> omega
          · intro l hl
            show lineScore l < lineScore x
            have := hall l hl
            omega
        · refine ⟨P, [], by simp, rfl, ?_, ?_, by simp⟩
          · show (0 : Int) ≤ lineScore x
            omega
          · intro l hl
            show lineScore l < lineScore x
            rw [hP] at hl
            rcases List.mem_append.1 hl with hl | hl
            · exact lt_trans (hpre l hl) hx
            · rcases List.mem_cons.1 hl with hl | hl
              · subst hl; omega
              · exact lt_of_le_of_lt (hpost l hl) hx
      · have hps : pickStep acc x = acc := by
          unfold pickStep; rw [if_neg hx]
        rw [hps]
        rcases h with ⟨hacc, hall⟩ | ⟨pre, post, hP, hsc, hnn, hpre, hpost⟩
        · left
          refine ⟨hacc, ?_⟩
          intro l hl
          rcases List.mem_append.1 hl with hl | hl
          · exact hall l hl
          · simp only [List.mem_singleton] at hl
            subst hl
            have hx2 : lineScore l ≤ -1 := by rw [hacc] at hx; simpa using hx
            rcases lineScore_cases l with h5 | h0 | hm5 <;> omega
        · right
          refine ⟨pre, post ++ [x], by rw [hP]; simp, hsc, hnn, hpre, ?_⟩
          intro l hl
          rcases List.mem_append.1 hl with hl | hl
          · exact hpost l hl
          · simp only [List.mem_singleton] at hl
            subst hl
            omega
    have := ih (P ++ [x]) (pickStep acc x) hstep
    simpa [List.append_assoc] using this


/-- C8.  When the raw markup contains row-break markers, the Structural
Cleaner splits it into non-empty stripped segments and selects the segment
maximizing the score (`+5` equality-like operator, `-5` short `\mathrm` text
annotation under 20 characters, `-5` shorter than 3 characters), breaking
ties by first occurrence: every earlier segment scores strictly less, every
segment scores at most the selected one. -/
theorem claim_C8_best_line (c : Str) (h1 : containsSub rowBreakTok c = true)
    (h2 : lineSegments c ≠ []) :
    selectBestLine c = pickBestLine (lineSegments c) ∧
    ∃ pre post, lineSegments c = pre ++ pickBestLine (lineSegments c) :: post ∧
      (∀ l ∈ lineSegments c, lineScore l ≤ lineScore (pickBestLine (lineSegments c))) ∧
      (∀ l ∈ pre, lineScore l < lineScore (pickBestLine (lineSegments c))) := by
  constructor
  · simp [selectBestLine, h1, h2]
  · rcases hL : lineSegments c with _ | ⟨l0, rest⟩
    · exact absurd hL h2
    · have hinv := pick_fold_inv l0 (l0 :: rest) [] ((l0 :: rest).headD [], -1)
        (by left; exact ⟨by simp, by intro l hl; cases hl⟩)
      simp only [List.nil_append] at hinv
      have hpb : pickBestLine (l0 :: rest) = ((l0 :: rest).foldl pickStep
          ((l0 :: rest).headD [], -1)).1 := rfl
      rcases hinv with ⟨hacc, hall⟩ | ⟨pre, post, hP, hsc, hnn, hpre, hpost⟩
      · rw [hpb, hacc]
        refine ⟨[], rest, by simp, ?_, by simp⟩
        intro l hl
        have h0 := hall l0 (List.mem_cons_self _ _)
        have := hall l hl
        simp [this, h0]
      · rw [hpb]
        refine ⟨pre, post, hP, ?_, ?_⟩
        · intro l hl
          rw [hP] at hl
          rcases List.mem_append.1 hl with hl | hl
          · have := hpre l hl; omega
          · rcases List.mem_cons.1 hl with hl | hl
            · subst hl; omega
            · have := hpost l hl; omega
        · intro l hl
          have := hpre l hl
          omega

/-- Witness for C8: on `a\\b=c` the segments are `a` (score `-5`) and `b=c`
(score `5`); the second is selected. -/
theorem claim_C8_witness :
    selectBestLine ['a', '\\', '\\', 'b', '=', 'c'] =
      pickBestLine (lineSegments ['a', '\\', '\\', 'b', '=', 'c']) ∧
    ∃ pre post, lineSegments ['a', '\\', '\\', 'b', '=', 'c'] = pre ++
        pickBestLine (lineSegments ['a', '\\', '\\', 'b', '=', 'c']) :: post ∧
      (∀ l ∈ lineSegments ['a', '\\', '\\', 'b', '=', 'c'],
        lineScore l ≤ lineScore (pickBestLine (lineSegments ['a', '\\', '\\', 'b', '=', 'c']))) ∧
      (∀ l ∈ pre,
        lineScore l < lineScore (pickBestLine (lineSegments ['a', '\\', '\\', 'b', '=', 'c']))) :=
  claim_C8_best_line ['a', '\\', '\\', 'b', '=', 'c'] (by decide) (by decide)

/-- Character class of a regex pattern: character ranges plus single
characters, possibly negated. -/
structure CCls where
  ranges : List (Char × Char)
  singles : List Char
  neg : Bool

def CCls.test (k : CCls) (c : Char) : Bool :=
  (k.ranges.any (fun p => decide (p.1 ≤ c) && decide (c ≤ p.2)) || k.singles.contains c)
    != k.neg

/-- Class test under an optional `re.IGNORECASE` flag: a character matches if
any of its case variants is in the class (ASCII case folding, matching
Python's behaviour on the ASCII patterns used by the service). -/
def CCls.testCI (k : CCls) (ci : Bool) (c : Char) : Bool :=
  if ci then k.test c || k.test c.toLower || k.test c.toUpper else k.test c

/-- Literal comparison under an optional `re.IGNORECASE` flag. -/
def litEq (ci : Bool) (a b : Char) : Bool :=
  if ci then a.toLower == b.toLower else a == b

/-- Simple (non-capturing) regex items: exactly the constructs appearing in
the service's patterns — literals, character classes, greedy `*`/`+`/`?` over
a class, the word boundary `\b`, and a one-character negative lookbehind
`(?<!…)`.  Greedy matching without backtracking is exact for all of the
service's patterns because every starred/plussed/optional class there is
disjoint from the item that follows it. -/
inductive SItem where
  | lit (c : Char)
  | cls (k : CCls)
  | star (k : CCls)
  | plus (k : CCls)
  | opt (k : CCls)
  | bnd
  | nlb (k : CCls)

/-- Pattern items: simple items plus single-level capturing groups (no
pattern in the service nests groups). -/
inductive PItem where
  | simple (i : SItem)
  | grp (sub : List SItem)

def lastOr (prev : Option Char) (co : Str) : Option Char :=
  match co.getLast? with
  | some c => some c
  | none => prev

/-- Regex word characters `[a-zA-Z0-9_]` for `\b`. -/
def isWordChar (c : Char) : Bool :=
  (decide ('a' ≤ c) && decide (c ≤ 'z')) || (decide ('A' ≤ c) && decide (c ≤ 'Z')) ||
    (decide ('0' ≤ c) && decide (c ≤ '9')) || c == '_'

def isWordOpt : Option Char → Bool
  | none => false
  | some c => isWordChar c

/-- Match a list of simple items at the start of `s`, knowing the previous
character `prev` (for `\b` and lookbehind).  Returns the consumed prefix and
the remaining suffix. -/
def matchSimple (ci : Bool) : List SItem → Option Char → Str → Option (Str × Str)
  | [], _, s => some ([], s)
  | SItem.lit a :: its, _, s =>
    match s with
    | [] => none
    | c :: rest =>
      if litEq ci a c then
        match matchSimple ci its (some c) rest with
        | some (co, r) => some (c :: co, r)
        | none => none
      else none
  | SItem.cls k :: its, _, s =>
    match s with
    | [] => none
    | c :: rest =>
      if k.testCI ci c then
        match matchSimple ci its (some c) rest with
        | some (co, r) => some (c :: co, r)
        | none => none
      else none
  | SItem.star k :: its, prev, s =>
    match matchSimple ci its (lastOr prev (s.takeWhile (k.testCI ci)))
        (s.dropWhile (k.testCI ci)) with
    | some (co, r2) => some (s.takeWhile (k.testCI ci) ++ co, r2)
    | none => none
  | SItem.plus k :: its, _, s =>
    match s with
    | [] => none
    | c :: rest =>
      if k.testCI ci c then
        match matchSimple ci its (lastOr (some c) (rest.takeWhile (k.testCI ci)))
            (rest.dropWhile (k.testCI ci)) with
        | some (co, r2) => some (c :: (rest.takeWhile (k.testCI ci) ++ co), r2)
        | none => none
      else none
  | SItem.opt k :: its, prev, s =>
    match s with
    | c :: rest =>
      if k.testCI ci c then
        match matchSimple ci its (some c) rest with
        | some (co, r) => some (c :: co, r)
        | none => none
      else matchSimple ci its prev (c :: rest)
    | [] => matchSimple ci its prev []
  | SItem.bnd :: its, prev, s =>
    if isWordOpt prev != isWordOpt s.head? then matchSimple ci its prev s else none
  | SItem.nlb k :: its, prev, s =>
    match prev with
    | some p => if k.testCI ci p then none else matchSimple ci its prev s
    | none => matchSimple ci its prev s

/-- Match a list of pattern items; returns consumed prefix, remaining suffix,
and the list of group captures in order. -/
def matchItems (ci : Bool) : List PItem → Option Char → Str → Option (Str × Str × List Str)
  | [], _, s => some ([], s, [])
  | PItem.simple it :: its, prev, s =>
    match matchSimple ci [it] prev s with
    | some (co, r) =>
      match matchItems ci its (lastOr prev co) r with
      | some (co2, r2, caps) => some (co ++ co2, r2, caps)
      | none => none
    | none => none
  | PItem.grp sub :: its, prev, s =>
    match matchSimple ci sub prev s with
    | some (co, r) =>
      match matchItems ci its (lastOr prev co) r with
      | some (co2, r2, caps) => some (co ++ co2, r2, co :: caps)
      | none => none
    | none => none

/-- Replacement template parts: literal text or a group reference (`\1` is
group index 0). -/
inductive RPart where
  | str (l : Str)
  | grp (n : Nat)

def expandRepl (repl : List RPart) (caps : List Str) : Str :=
  match repl with
  | [] => []
  | RPart.str l :: rest => l ++ expandRepl rest caps
  | RPart.grp n :: rest => caps.getD n [] ++ expandRepl rest caps

/-- `re.sub`: scan left to right, replace each non-overlapping match,
continue after the match.  Fuelled by the string length; every step consumes
at least one input character (no pattern of the service matches the empty
string — a defensive empty match is skipped over like a non-match), so the
fuel suffices. -/
def reSubF (ci : Bool) (items : List PItem) (repl : List RPart) :
    Nat → Option Char → Str → Str
  | _, _, [] => []
  | 0, _, s => s
  | fuel+1, prev, c :: rest =>
    match matchItems ci items prev (c :: rest) with
    | some (co, r, caps) =>
      if co.isEmpty then c :: reSubF ci items repl fuel (some c) rest
      else expandRepl repl caps ++ reSubF ci items repl fuel (lastOr prev co) r
    | none => c :: reSubF ci items repl fuel (some c) rest

def reSub (ci : Bool) (items : List PItem) (repl : List RPart) (s : Str) : Str :=
  reSubF ci items repl s.length none s

/-- Python `str.replace` (all non-overlapping occurrences, left to right),
fuelled by the string length. -/
def replaceAllF (pat repl : Str) : Nat → Str → Str
  | _, [] => []
  | 0, s => s
  | fuel+1, c :: rest =>
    if pat ≠ [] ∧ startsWithL pat (c :: rest) = true then
      repl ++ replaceAllF pat repl fuel ((c :: rest).drop pat.length)
    else c :: replaceAllF pat repl fuel rest

def replaceAll (pat repl s : Str) : Str := replaceAllF pat repl s.length s

def pl (c : Char) : PItem := PItem.simple (SItem.lit c)

def litsP (s : Str) : List PItem := s.map pl

def pc (k : CCls) : PItem := PItem.simple (SItem.cls k)

def pstar (k : CCls) : PItem := PItem.simple (SItem.star k)

def pplus (k : CCls) : PItem := PItem.simple (SItem.plus k)

def popt (k : CCls) : PItem := PItem.simple (SItem.opt k)

def pbnd : PItem := PItem.simple SItem.bnd

def pnlb (k : CCls) : PItem := PItem.simple (SItem.nlb k)

def spcCls : CCls := ⟨[], [' ', '\t', '\n', '\r', '\x0b', '\x0c'], false⟩

def digitCls : CCls := ⟨[('0', '9')], [], false⟩

def alphaCls : CCls := ⟨[('a', 'z'), ('A', 'Z')], [], false⟩

def alnumCls : CCls := ⟨[('a', 'z'), ('A', 'Z'), ('0', '9')], [], false⟩

def alnumOpsCls : CCls := ⟨[('a', 'z'), ('A', 'Z'), ('0', '9')], ['+', '-', '*', '/'], false⟩

def notBraceCls : CCls := ⟨[], ['{', '}'], true⟩

def notParenCls : CCls := ⟨[], ['(', ')'], true⟩

def bsCls : CCls := ⟨[], ['\\'], false⟩

def supSubCls : CCls := ⟨[], ['^', '_'], false⟩

def oOCls : CCls := ⟨[], ['o', 'O'], false⟩

def iNCls : CCls := ⟨[], ['I', 'N'], false⟩

def starXCls : CCls := ⟨[], ['*', 'X'], false⟩

def xXstarCls : CCls := ⟨[], ['x', 'X', '*'], false⟩

def xXCls : CCls := ⟨[], ['x', 'X'], false⟩

def decSepCls : CCls := ⟨[], [':', ',', '.'], false⟩

def openBrkCls : CCls := ⟨[], ['(', '{', '['], false⟩

def deepDropCls : CCls :=
  ⟨[('0', '9'), ('a', 'z'), ('A', 'Z')],
    ['.', '+', '-', '*', '/', '^', '(', ')', '=', ' '], true⟩

/-- Leftmost-match search (`re.search`) for simple items: returns the text
before the match, the consumed match, and the remainder. -/
def searchSimple (ci : Bool) (items : List SItem) :
    Option Char → Str → Str → Option (Str × Str × Str)
  | prev, accRev, s =>
    match matchSimple ci items prev s with
    | some (co, r) => some (accRev.reverse, co, r)
    | none =>
      match s with
      | [] => none
      | c :: rest => searchSimple ci items (some c) (c :: accRev) rest

/-- The brace scan of the wrapper-removal loop (ocr_service.py lines
490-505): starting just after the opening brace with nesting depth 1, find
the matching closing brace; returns the inner content and the text after the
closing brace, or `none` if the brace is never closed (`found = False`). -/
def findCloseBrace : Nat → Str → Option (Str × Str)
  | _, [] => none
  | n, c :: rest =>
    if c == '{' then
      match findCloseBrace (n + 1) rest with
      | some (i, a) => some (c :: i, a)
      | none => none
    else if c == '}' then
      if n = 1 then some ([], rest)
      else
        match findCloseBrace (n - 1) rest with
        | some (i, a) => some (c :: i, a)
        | none => none
    else
      match findCloseBrace n rest with
      | some (i, a) => some (c :: i, a)
      | none => none

/-- Pattern `escaped(cmd) + r'\s*\{'` of the wrapper-removal loop. -/
def wrapBracedPat (cmd : Str) : List SItem :=
  cmd.map SItem.lit ++ [SItem.star spcCls, SItem.lit '{']

/-- One iteration of the `while True` wrapper-removal loop of
`heuristic_semantic_correction` (lines 487-506): search for `cmd\s*{`, scan
to the matching closing brace, splice keeping or dropping the inner content;
`none` means the loop breaks (no match, or unclosed brace). -/
def unwrapStep (keep : Bool) (cmd : Str) (s : Str) : Option Str :=
  match searchSimple false (wrapBracedPat cmd) none [] s with
  | none => none
  | some (before, _co, rest) =>
    match findCloseBrace 1 rest with
    | none => none
    | some (inner, after) => some (before ++ (if keep then inner else []) ++ after)

/-- The `while True` wrapper-removal loop, fuelled: `none` models
non-termination within the given fuel. -/
def unwrapLoopFuel (keep : Bool) (cmd : Str) : Nat → Str → Option Str
  | 0, _ => none
  | fuel+1, s =>
    match unwrapStep keep cmd s with
    | none => some s
    | some t => unwrapLoopFuel keep cmd fuel t

/-- The wrapper-removal loop as used by `heuristic_semantic_correction`; by
`claim_C6_loop_termination` the fuel `length + 1` always suffices, so the
default branch is never taken. -/
def unwrapLoop (keep : Bool) (cmd : Str) (s : Str) : Str :=
  (unwrapLoopFuel keep cmd (s.length + 1) s).getD s

/-- A successful simple-item match consumes a prefix of the input. -/
theorem matchSimple_decomp (ci : Bool) (its : List SItem) :
    ∀ (prev : Option Char) (s co r : Str),
      matchSimple ci its prev s = some (co, r) → co ++ r = s := by
  induction its with
  | nil =>
    intro prev s co r h
    simp only [matchSimple, Option.some.injEq, Prod.mk.injEq] at h
    rw [← h.1, ← h.2]
    rfl
  | cons it its ih =>
    intro prev s co r h
    cases it with
    | lit a =>
      cases s with
      | nil => simp [matchSimple] at h
      | cons c rest =>
        simp only [matchSimple] at h
        by_cases he : litEq ci a c = true
        · rw [if_pos he] at h
          cases hm : matchSimple ci its (some c) rest with
          | none => rw [hm] at h; exact absurd h (by simp)
          | some pr =>
            obtain ⟨co2, r2⟩ := pr
            rw [hm] at h
            simp only [Option.some.injEq, Prod.mk.injEq] at h
            rw [← h.1, ← h.2]
            simpa using ih (some c) rest co2 r2 hm
        · rw [if_neg he] at h; exact absurd h (by simp)
    | cls k =>
      cases s with
      | nil => simp [matchSimple] at h
      | cons c rest =>
        simp only [matchSimple] at h
        by_cases he : k.testCI ci c = true
        · rw [if_pos he] at h
          cases hm : matchSimple ci its (some c) rest with
          | none => rw [hm] at h; exact absurd h (by simp)
          | some pr =>
            obtain ⟨co2, r2⟩ := pr
            rw [hm] at h
            simp only [Option.some.injEq, Prod.mk.injEq] at h
            rw [← h.1, ← h.2]
            simpa using ih (some c) rest co2 r2 hm
        · rw [if_neg he] at h; exact absurd h (by simp)
    | star k =>
      simp only [matchSimple] at h
      cases hm : matchSimple ci its (lastOr prev (s.takeWhile (k.testCI ci)))
          (s.dropWhile (k.testCI ci)) with
      | none => rw [hm] at h; exact absurd h (by simp)
      | some pr =>
        obtain ⟨co2, r2⟩ := pr
        rw [hm] at h
        simp only [Option.some.injEq, Prod.mk.injEq] at h
        rw [← h.1, ← h.2]
        have := ih _ _ co2 r2 hm
        rw [List.append_assoc, this, List.takeWhile_append_dropWhile]
    | plus k =>
      cases s with
      | nil => simp [matchSimple] at h
      | cons c rest =>
        simp only [matchSimple] at h
        by_cases he : k.testCI ci c = true
        · rw [if_pos he] at h
          cases hm : matchSimple ci its (lastOr (some c) (rest.takeWhile (k.testCI ci)))
              (rest.dropWhile (k.testCI ci)) with
          | none => rw [hm] at h; exact absurd h (by simp)
          | some pr =>
            obtain ⟨co2, r2⟩ := pr
            rw [hm] at h
            simp only [Option.some.injEq, Prod.mk.injEq] at h
            rw [← h.1, ← h.2]
            have := ih _ _ co2 r2 hm
            simp only [List.cons_append, List.append_assoc, this,
              List.takeWhile_append_dropWhile]
        · rw [if_neg he] at h; exact absurd h (by simp)
    | opt k =>
      cases s with
      | nil =>
        simp only [matchSimple] at h
        exact ih prev [] co r h
      | cons c rest =>
        simp only [matchSimple] at h
        by_cases he : k.testCI ci c = true
        · rw [if_pos he] at h
          cases hm : matchSimple ci its (some c) rest with
          | none => rw [hm] at h; exact absurd h (by simp)
          | some pr =>
            obtain ⟨co2, r2⟩ := pr
            rw [hm] at h
            simp only [Option.some.injEq, Prod.mk.injEq] at h
            rw [← h.1, ← h.2]
            simpa using ih (some c) rest co2 r2 hm
        · rw [if_neg he] at h
          exact ih prev (c :: rest) co r h
    | bnd =>
      simp only [matchSimple] at h
      by_cases he : (isWordOpt prev != isWordOpt s.head?) = true
      · rw [if_pos he] at h; exact ih prev s co r h
      · rw [if_neg he] at h; exact absurd h (by simp)
    | nlb k =>
      cases prev with
      | none =>
        simp only [matchSimple] at h
        exact ih none s co r h
      | some p =>
        simp only [matchSimple] at h
        by_cases he : k.testCI ci p = true
        · rw [if_pos he] at h; exact absurd h (by simp)
        · rw [if_neg he] at h; exact ih (some p) s co r h

/-- A successful search decomposes its input. -/
theorem searchSimple_decomp (ci : Bool) (items : List SItem) (s : Str) :
    ∀ (prev : Option Char) (accRev before co r : Str),
      searchSimple ci items prev accRev s = some (before, co, r) →
      before ++ co ++ r = accRev.reverse ++ s := by
  induction s with
  | nil =>
    intro prev accRev before co r h
    simp only [searchSimple] at h
    cases hm : matchSimple ci items prev [] with
    | none => rw [hm] at h; exact absurd h (by simp)
    | some pr =>
      obtain ⟨co2, r2⟩ := pr
      rw [hm] at h
      simp only [Option.some.injEq, Prod.mk.injEq] at h
      obtain ⟨h1, h2, h3⟩ := h
      rw [← h1, ← h2, ← h3]
      simpa using matchSimple_decomp ci items prev [] co2 r2 hm
  | cons c rest ih =>
    intro prev accRev before co r h
    simp only [searchSimple] at h
    cases hm : matchSimple ci items prev (c :: rest) with
    | none =>
      rw [hm] at h
      have := ih (some c) (c :: accRev) before co r h
      simpa [List.append_assoc] using this
    | some pr =>
      obtain ⟨co2, r2⟩ := pr
      rw [hm] at h
      simp only [Option.some.injEq, Prod.mk.injEq] at h
      obtain ⟨h1, h2, h3⟩ := h
      rw [← h1, ← h2, ← h3]
      rw [List.append_assoc, matchSimple_decomp ci items prev (c :: rest) co2 r2 hm]

/-- A successful brace scan decomposes its input around the closing brace. -/
theorem findCloseBrace_decomp : ∀ (s : Str) (n : Nat) (i a : Str),
    findCloseBrace n s = some (i, a) → s = i ++ '}' :: a := by
  intro s
  induction s with
  | nil => intro n i a h; simp [findCloseBrace] at h
  | cons c rest ih =>
    intro n i a h
    simp only [findCloseBrace] at h
    by_cases h1 : (c == '{') = true
    · rw [if_pos h1] at h
      cases hm : findCloseBrace (n + 1) rest with
      | none => rw [hm] at h; exact absurd h (by simp)
      | some pr =>
        obtain ⟨i2, a2⟩ := pr
        rw [hm] at h
        simp only [Option.some.injEq, Prod.mk.injEq] at h
        rw [← h.1, ← h.2]
        simpa using ih (n + 1) i2 a2 hm
    · rw [if_neg h1] at h
      by_cases h2 : (c == '}') = true
      · rw [if_pos h2] at h
        by_cases h3 : n = 1
        · rw [if_pos h3] at h
          simp only [Option.some.injEq, Prod.mk.injEq] at h
          rw [← h.1, ← h.2]
          have : c = '}' := by simpa using h2
          simp [this]
        · rw [if_neg h3] at h
          cases hm : findCloseBrace (n - 1) rest with
          | none => rw [hm] at h; exact absurd h (by simp)
          | some pr =>
            obtain ⟨i2, a2⟩ := pr
            rw [hm] at h
            simp only [Option.some.injEq, Prod.mk.injEq] at h
            rw [← h.1, ← h.2]
            simpa using ih (n - 1) i2 a2 hm
      · rw [if_neg h2] at h
        cases hm : findCloseBrace n rest with
        | none => rw [hm] at h; exact absurd h (by simp)
        | some pr =>
          obtain ⟨i2, a2⟩ := pr
          rw [hm] at h
          simp only [Option.some.injEq, Prod.mk.injEq] at h
          rw [← h.1, ← h.2]
          simpa using ih n i2 a2 hm

/-- Each successful iteration of the wrapper-removal loop strictly shrinks the
string (at least the opening-brace match and the closing brace disappear). -/
theorem unwrapStep_shrink (keep : Bool) (cmd : Str) (s t : Str)
    (h : unwrapStep keep cmd s = some t) : t.length < s.length := by
  unfold unwrapStep at h
  cases hs : searchSimple false (wrapBracedPat cmd) none [] s with
  | none => simp [hs] at h
  | some pr =>
    obtain ⟨before, co, rest⟩ := pr
    simp only [hs] at h
    cases hf : findCloseBrace 1 rest with
    | none => simp [hf] at h
    | some pr2 =>
      obtain ⟨inner, after⟩ := pr2
      simp only [hf, Option.some.injEq] at h
      have hdec := searchSimple_decomp false (wrapBracedPat cmd) s none [] before co rest hs
      simp only [List.reverse_nil, List.nil_append] at hdec
      have hdec2 := findCloseBrace_decomp rest 1 inner after hf
      rw [← h, ← hdec, hdec2]
      cases keep <;> simp [List.length_append] <;> omega

/-- The wrapper-removal loop terminates whenever the fuel exceeds the string
length. -/
theorem unwrapLoopFuel_total (keep : Bool) (cmd : Str) : ∀ (fuel : Nat) (s : Str),
    s.length < fuel → (unwrapLoopFuel keep cmd fuel s).isSome = true := by
  intro fuel
  induction fuel with
  | zero => intro s h; omega
  | succ n ih =>
    intro s h
    simp only [unwrapLoopFuel]
    cases hstep : unwrapStep keep cmd s with
    | none => simp
    | some t =>
      have := unwrapStep_shrink keep cmd s t hstep
      exact ih t (by omega)

/-- C6.  The `while True` wrapper-unwrapping loops of the Semantic Corrector
terminate on every input string and every wrapper command: fuel one larger
than the string length always suffices, because each successful rewrite
strictly shrinks the string and every other outcome breaks the loop.  All
remaining stages of the repair pipeline are embedded below as structurally
total functions (single bounded scans), so every stage is total. -/
theorem claim_C6_loop_termination (keep : Bool) (cmd : Str) (s : Str) :
    (unwrapLoopFuel keep cmd (s.length + 1) s).isSome = true :=
  unwrapLoopFuel_total keep cmd (s.length + 1) s (by omega)

def replaceEach (toks : List Str) (repl : Str) (s : Str) : Str :=
  toks.foldl (fun r t => replaceAll t repl r) s

/-- Space-noise tokens of heuristic rule 0 (ocr_service.py line 476). -/
def spaceToks : List Str :=
  ["\\quad".toList, "\\qquad".toList, "\\;".toList, "\\!".toList, "\\:".toList,
    "\\,".toList, "~".toList]

/-- Space-noise tokens of heuristic rule 11 (line 623), which add `\ `. -/
def spaceToks2 : List Str := spaceToks ++ ["\\ ".toList]

/-- `keep_inner` wrapper commands (line 481). -/
def keepInnerCmds : List Str :=
  ["\\underline".toList, "\\overline".toList, "\\dot".toList, "\\hat".toList,
    "\\tilde".toList, "\\vec".toList, "\\bold".toList, "\\mathbf".toList,
    "\\mathit".toList, "\\mathrm".toList, "\\textmd".toList, "\\textrm".toList]

/-- `strip_all` wrapper commands (line 483). -/
def stripAllCmds : List Str :=
  ["\\text".toList, "\\textsf".toList, "\\texttt".toList, "\\textsl".toList,
    "\\textsc".toList]

/-- The wrapper loop iterates over `keep_inner + strip_all` (line 485). -/
def wrapperCmds : List (Str × Bool) :=
  keepInnerCmds.map (fun c => (c, true)) ++ stripAllCmds.map (fun c => (c, false))

/-- One `for wrap in (keep_inner + strip_all)` body (lines 486-510): the
braced `while True` loop, then the two non-braced substitutions
(`cmd\s+([a-zA-Z0-9])` and `cmd([a-zA-Z0-9])`, keeping the captured character
for `keep_inner` commands and dropping it for `strip_all` ones). -/
def applyWrapper (s : Str) (cmdKeep : Str × Bool) : Str :=
  let r := unwrapLoop cmdKeep.2 cmdKeep.1 s
  let r := reSub false (litsP cmdKeep.1 ++ [pplus spcCls, PItem.grp [SItem.cls alnumCls]])
    (if cmdKeep.2 then [RPart.grp 0] else []) r
  reSub false (litsP cmdKeep.1 ++ [PItem.grp [SItem.cls alnumCls]])
    (if cmdKeep.2 then [RPart.grp 0] else []) r

/-- Greek letter names of heuristic rule 2 (lines 539-543). -/
def greekLetters : List Str :=
  ["alpha".toList, "beta".toList, "gamma".toList, "delta".toList, "epsilon".toList,
    "zeta".toList, "eta".toList, "theta".toList, "iota".toList, "kappa".toList,
    "lambda".toList, "mu".toList, "nu".toList, "xi".toList, "omicron".toList,
    "pi".toList, "rho".toList, "sigma".toList, "tau".toList, "upsilon".toList,
    "phi".toList, "chi".toList, "psi".toList, "omega".toList]

/-- `re.sub(r'(?<!\\)\b<greek>\b', r'\<greek>', …, flags=IGNORECASE)`. -/
def applyGreek (s : Str) (name : Str) : Str :=
  reSub true ([pnlb bsCls, pbnd] ++ litsP name ++ [pbnd]) [RPart.str ('\\' :: name)] s

/-- Function names of heuristic rule 5 (line 579). -/
def funcNames : List Str :=
  ["cos".toList, "sin".toList, "tan".toList, "log".toList, "ln".toList, "lim".toList,
    "sqrt".toList, "exp".toList, "det".toList, "min".toList, "max".toList]

/-- Fragmented-function pattern `"\\s+".join(list(func))` (line 587). -/
def fragPat : Str → List PItem
  | [] => []
  | [c] => [pl c]
  | c :: rest => pl c :: pplus spcCls :: fragPat rest

/-- One `for func in functions` body of rule 5 (lines 580-590): insert the
missing backslash on whole-word case-insensitive matches, collapse
letter-by-letter fragmented spellings, then the literal
`replace(r'\\'+r'\\'+func, r'\\'+func)` (a four-backslash to two-backslash
cleanup as written in the source). -/
def applyFunc (s : Str) (f : Str) : Str :=
  let r := reSub true ([pnlb bsCls, pbnd] ++ litsP f ++ [pbnd]) [RPart.str ('\\' :: f)] s
  if f.length > 1 then
    let r := reSub true (fragPat f) [RPart.str ('\\' :: f)] r
    replaceAll ('\\' :: '\\' :: '\\' :: '\\' :: f) ('\\' :: '\\' :: f) r
  else r

/-- Differential variables of rule 7 (line 597). -/
def diffVars : List Char := ['x', 'y', 'z', 't', 'u', 'v']

/-- `re.sub(r'\bd<var>\b', r'\\,d<var>', …)` (line 598); the replacement
renders as `\,d<var>`. -/
def applyDiff (s : Str) (v : Char) : Str :=
  reSub false [pbnd, pl 'd', pl v, pbnd] [RPart.str ['\\', ',', 'd', v]] s

/-- `(\d)\s+(\d)` → `\1\2` digit joining (lines 573-574 and deep clean). -/
def digitJoinPat : List PItem :=
  [PItem.grp [SItem.cls digitCls], pplus spcCls, PItem.grp [SItem.cls digitCls]]

def digitJoinRepl : List RPart := [RPart.grp 0, RPart.grp 1]

/-- `heuristic_semantic_correction` (ocr_service.py lines 466-632): the
ordered Semantic Corrector rule table, transcribed rule by rule. -/
def heuristic_semantic_correction (latexStr : Str) : Str :=
  -- 0. pre-cleaning: small-space commands to a single space (lines 476-477)
  let r := replaceEach spaceToks [' '] latexStr
  -- 1. visual wrapper removal (lines 479-510)
  let r := wrapperCmds.foldl applyWrapper r
  -- 1.1 redundant double braces, then single braces to parentheses
  -- (lines 516-518)
  let r := reSub false [pl '{', pl '{', PItem.grp [SItem.plus notBraceCls], pl '}', pl '}']
    [RPart.str ['{'], RPart.grp 0, RPart.str ['}']] r
  let r := reSub false [pnlb supSubCls, pl '{', PItem.grp [SItem.plus alnumOpsCls], pl '}']
    [RPart.str ['('], RPart.grp 0, RPart.str [')']] r
  -- 2. character confusions and hallucinations (lines 521-536)
  let r := reSub true [pbnd, pl 'h', pstar spcCls, pl 't', pstar spcCls, pl 'e',
    pstar spcCls, pl 't', pstar spcCls, pl 'a', pbnd] [RPart.str "\\theta".toList] r
  let r := reSub true (litsP "hteta".toList) [RPart.str "\\theta".toList] r
  let r := reSub true (litsP "htet".toList) [RPart.str "\\theta".toList] r
  let r := reSub true [pl 'S', pstar spcCls, pl 'L', pstar spcCls, pc iNCls, pbnd]
    [RPart.str "\\sin".toList] r
  let r := reSub true [pl 'C', pstar spcCls, pl 'O', pstar spcCls, pl 'S', pbnd]
    [RPart.str "\\cos".toList] r
  let r := reSub true [pl 'T', pstar spcCls, pl 'A', pstar spcCls, pl 'N', pbnd]
    [RPart.str "\\tan".toList] r
  let r := reSub true [pl 'L', pstar spcCls, pl 'N', pbnd] [RPart.str "\\ln".toList] r
  let r := reSub true [pl 'L', pstar spcCls, pl 'I', pstar spcCls, pl 'M', pbnd]
    [RPart.str "\\lim".toList] r
  let r := reSub true [pl 'S', pstar spcCls, pl 'Q', pstar spcCls, pl 'R', pstar spcCls,
    pl 'T', pbnd] [RPart.str "\\sqrt".toList] r
  let r := reSub true [pl 'E', pstar spcCls, pl 'X', pstar spcCls, pl 'P', pbnd]
    [RPart.str "\\exp".toList] r
  -- 2. Greek letter prefixing (lines 544-547)
  let r := greekLetters.foldl applyGreek r
  -- `\chi` is almost always `x` (line 550)
  let r := replaceAll "\\chi".toList ['x'] r
  -- `(*)`, `( X )`, `( \ *)` as function arguments (lines 553-555)
  let r := reSub false [pl '(', pstar spcCls, pc starXCls, pstar spcCls, pl ')']
    [RPart.str "(x)".toList] r
  let r := reSub false [pl '(', pstar spcCls, pl '\\', pstar spcCls, pc xXstarCls,
    pstar spcCls, pl ')'] [RPart.str "(x)".toList] r
  -- O vs 0 digit confusion (lines 559-562)
  let r := reSub false [PItem.grp [SItem.cls digitCls], pstar spcCls, pc oOCls, pbnd]
    [RPart.grp 0, RPart.str [' ', '0']] r
  let r := reSub false [pbnd, pc oOCls, pstar spcCls, PItem.grp [SItem.cls digitCls]]
    [RPart.str ['0', ' '], RPart.grp 0] r
  let r := reSub false [PItem.grp [SItem.cls digitCls], pstar spcCls, pc oOCls,
    pstar spcCls, PItem.grp [SItem.cls digitCls]]
    [RPart.grp 0, RPart.str [' ', '0', ' '], RPart.grp 1] r
  -- 3. operator normalization (lines 565-570)
  let r := replaceAll "\\times".toList ['*'] r
  let r := replaceAll "\\cdot".toList ['*'] r
  let r := replaceAll "\\star".toList ['*'] r
  let r := reSub false [PItem.grp [SItem.cls digitCls], pstar spcCls, pc xXCls,
    pstar spcCls, PItem.grp [SItem.cls digitCls]]
    [RPart.grp 0, RPart.str " * ".toList, RPart.grp 1] r
  let r := reSub false [PItem.grp [SItem.cls alphaCls], pplus spcCls, pc xXCls,
    pplus spcCls, PItem.grp [SItem.cls alphaCls]]
    [RPart.grp 0, RPart.str " * ".toList, RPart.grp 1] r
  -- 4. decimal and digit joining (lines 573-576)
  let r := reSub false digitJoinPat digitJoinRepl r
  let r := reSub false digitJoinPat digitJoinRepl r
  let r := reSub false digitJoinPat digitJoinRepl r
  let r := reSub false [PItem.grp [SItem.cls digitCls], pstar spcCls, pc decSepCls,
    pstar spcCls, PItem.grp [SItem.cls digitCls]]
    [RPart.grp 0, RPart.str ['.'], RPart.grp 1] r
  -- 5. function normalization (lines 579-590)
  let r := funcNames.foldl applyFunc r
  -- 6. logarithmic specifics (lines 593-594)
  let r := reSub true [pbnd, pl 'I', pl 'n', pbnd] [RPart.str "\\ln".toList] r
  let r := reSub true ([pnlb bsCls, pbnd] ++ litsP "ln".toList ++ [pbnd])
    [RPart.str "\\ln".toList] r
  -- 7. differentials (lines 597-598)
  let r := diffVars.foldl applyDiff r
  -- 8. limit cleanup (lines 601-603)
  let r :=
    if containsSub "lim".toList r then
      let r := reSub false ([pnlb bsCls, pbnd] ++ litsP "lim".toList ++ [pbnd])
        [RPart.str "\\lim".toList] r
      reSub false ([pl '\\'] ++ litsP "lim".toList ++ [pstar spcCls, pl '_', pstar spcCls,
        pl '{']) [RPart.str ("\\lim_".toList ++ ['{'])] r
    else r
  -- 9. redundant nested parentheses (lines 607-608)
  let r := reSub false [pl '(', pstar spcCls, pl '(', PItem.grp [SItem.plus notParenCls],
    pl ')', pstar spcCls, pl ')'] [RPart.str ['('], RPart.grp 0, RPart.str [')']] r
  let r := reSub false [pl '(', pstar spcCls, pl '(', PItem.grp [SItem.plus notParenCls],
    pl ')', pstar spcCls, pl ')'] [RPart.str ['('], RPart.grp 0, RPart.str [')']] r
  let r := reSub false [pl '(', pstar spcCls, pl '(', PItem.grp [SItem.plus notParenCls],
    pl ')', pstar spcCls, pl ')'] [RPart.str ['('], RPart.grp 0, RPart.str [')']] r
  -- 10. function braces to parentheses, brace-wrapped single commands
  -- (lines 612-619)
  let r := funcNames.foldl (fun r f =>
    reSub false (pl '\\' :: litsP f ++ [pstar spcCls, pl '{',
      PItem.grp [SItem.plus notBraceCls], pl '}'])
      [RPart.str ('\\' :: f ++ ['(']), RPart.grp 0, RPart.str [')']] r) r
  let r := reSub false [pl '{', PItem.grp [SItem.lit '\\', SItem.plus alphaCls], pl '}']
    [RPart.grp 0] r
  let r := reSub false [pl '{', pplus spcCls] [RPart.str ['{']] r
  let r := reSub false [pplus spcCls, pl '}'] [RPart.str ['}']] r
  -- 11. final spacing pass (lines 623-630)
  let r := replaceEach spaceToks2 [' '] r
  let r := reSub false [pplus spcCls] [RPart.str [' ']] r
  let r := reSub false [PItem.grp [SItem.lit '\\', SItem.plus alphaCls], pplus spcCls,
    PItem.grp [SItem.cls openBrkCls]] [RPart.grp 0, RPart.grp 1] r
  stripWS r

/-- Model of a parsed SymPy expression as far as the service observes it:
`eq = some (lhs, rhs)` when the object has `lhs`/`rhs` attributes (an
equation), and the `str(expr)` rendering. -/
structure SymExpr where
  eq : Option (Str × Str)
  rendering : Str
deriving DecidableEq

/-- A parser collaborator: `parse_latex` or `parse_expr`, returning `none` on
any exception. -/
abbrev ParserFn := Str → Option SymExpr

/-- The `_{…}` subscript-artifact pattern `_\{?([a-zA-Z0-9]+)\}?` of
`format_sympy_result` (line 676). -/
def subscriptArtifactPat : List PItem :=
  [pl '_', popt (CCls.mk [] ['{'] false), PItem.grp [SItem.plus alnumCls],
    popt (CCls.mk [] ['}'] false)]

/-- `format_sympy_result` (ocr_service.py lines 666-677): render `lhs = rhs`
for equations or `str(expr)` otherwise, replace `**` by `^`, and strip
subscript artifacts. -/
def format_sympy_result (e : SymExpr) : Str :=
  let canonical :=
    match e.eq with
    | some (l, r) => l ++ " = ".toList ++ r
    | none => e.rendering
  let canonical := replaceAll "**".toList ['^'] canonical
  reSub false subscriptArtifactPat [RPart.grp 0] canonical

/-- `deep_clean_math` (ocr_service.py lines 680-711). -/
def deep_clean_math (text : Str) : Str :=
  let r := ["\\text".toList, "\\mathrm".toList, "\\mathbf".toList,
    "\\mathit".toList].foldl (fun r cmd =>
      let r := reSub false (litsP cmd ++ [pl '{', pstar notBraceCls, pl '}'])
        [RPart.str [' ']] r
      replaceAll cmd [' '] r) text
  let r := reSub false [pl '\\', pplus alphaCls] [RPart.str [' ']] r
  let r := replaceAll ['{'] ['('] r
  let r := replaceAll ['}'] [')'] r
  let r := replaceAll ['['] ['('] r
  let r := replaceAll [']'] [')'] r
  let r := reSub false [pc deepDropCls] [] r
  let r := reSub false digitJoinPat digitJoinRepl r
  let r := reSub false digitJoinPat digitJoinRepl r
  let r := reSub false digitJoinPat digitJoinRepl r
  balance_parentheses (stripWS r)

/-- `fallback_validate` (ocr_service.py lines 713-747): replace `^` by `**`,
hand the string to the generic expression parser (modelled by `parseE`, which
covers the `ast`-driven `local_dict` construction feeding `parse_expr`), and
on success render with `**` back to `^`.  When SymPy failed to import, the
body raises `NameError` at the first SymPy name and the `except` returns the
input unvalidated. -/
def fallback_validate (sympyAvailable : Bool) (parseE : ParserFn)
    (expressionStr : Str) : Str × Bool :=
  if sympyAvailable then
    match parseE (replaceAll ['^'] "**".toList expressionStr) with
    | some e => (replaceAll "**".toList ['^'] e.rendering, true)
    | none => (expressionStr, false)
  else (expressionStr, false)

/-- `validate_and_canonicalize` (ocr_service.py lines 635-663).  Note the
order in the source: the Semantic Corrector and the Bracket Balancer are
applied to the input *before* the first `parse_latex` attempt (lines
643-646, "CRITICAL: Apply heuristics BEFORE first parse attempt"); the
second tier deep-cleans and uses the generic parser via `fallback_validate`;
the last resort hands the original input to `fallback_validate`. -/
def validate_and_canonicalize (sympyAvailable : Bool) (parseL parseE : ParserFn)
    (latexStr : Str) : Str × Bool :=
  if sympyAvailable then
    match parseL (balance_parentheses (heuristic_semantic_correction latexStr)) with
    | some e => (format_sympy_result e, true)
    | none =>
      match fallback_validate sympyAvailable parseE (deep_clean_math latexStr) with
      | (canonical, true) => (canonical, true)
      | (_, false) => fallback_validate sympyAvailable parseE latexStr
  else fallback_validate sympyAvailable parseE latexStr

/-- `estimate_confidence` (ocr_service.py lines 750-778), over `ℚ` in place
of `float`. -/
def estimate_confidence (latex : Str) : ℚ :=
  let score : ℚ := 9/10
  let score := if latex.length < 2 then score - 3/10 else score
  let score := if latex.length > 200 then score - 1/5 else score
  let unusual := (latex.filter (fun c => 127 < c.toNat)).length
  let score := if (unusual : ℚ) > (latex.length : ℚ) * (3/10) then score - 1/5 else score
  let score := if countC '{' latex ≠ countC '}' latex then score - 3/10 else score
  let score := if countC '(' latex ≠ countC ')' latex then score - 1/5 else score
  max 0 (min 1 score)

/-- The post-validation confidence adjustment of `recognize` (ocr_service.py
lines 214-217): `min(1.0, c+0.1)` when validated, else `max(0.0, c-0.15)` but
only under `elif SYMPY_AVAILABLE`. -/
def adjust_confidence (sympyAvailable validated : Bool) (c : ℚ) : ℚ :=
  if validated then min 1 (c + 1/10)
  else if sympyAvailable then max 0 (c - 3/20)
  else c

def beginArrayTok : Str := "\\begin\x7barray\x7d".toList

def endArrayTok : Str := "\\end\x7barray\x7d".toList

def mathrmTieTok : Str := "\\mathrm\x7bTie".toList

def emptyMathrm2Tok : Str := "\x7b\x7b\\mathrm\x7b\x7d\x7d\x7d".toList

def emptyMathrmTok : Str := "\\mathrm\x7b\x7d".toList

def caretStarBracedTok : Str := "^\x7b*\x7d".toList

def caretStarTok : Str := "^*".toList

def starSubTok : Str := "_\x7b\\mathit\x7bstar\x7d\x7d".toList

/-- The `_\{([a-zA-Z0-9]+)\}` → `_{\mathit{\1}}` subscript wrap of
`clean_latex_output` (line 384). -/
def subscriptWrapPat : List PItem :=
  [pl '_', pl '{', PItem.grp [SItem.plus alnumCls], pl '}']

def subscriptWrapRepl : List RPart :=
  [RPart.str "_\x7b\\mathit\x7b".toList, RPart.grp 0, RPart.str "\x7d\x7d".toList]

/-- `clean_latex_output` (ocr_service.py lines 301-413), transcribed step by
step; the final three steps are the Semantic Corrector, the Bracket
Balancer, and `strip()`. -/
def clean_latex_output (latex : Str) : Str :=
  if latex = [] then []
  else
    let cleaned := stripWS latex
    let cleaned :=
      if containsSub beginArrayTok cleaned then
        let c2 := replaceAll beginArrayTok [] cleaned
        if c2.head? = some '{' ∧ containsSub ['}'] c2 = true then
          (c2.dropWhile (fun c => !(c == '}'))).drop 1
        else c2
      else cleaned
    let cleaned :=
      if containsSub endArrayTok cleaned then replaceAll endArrayTok [] cleaned
      else cleaned
    let cleaned := selectBestLine cleaned
    let cleaned :=
      if containsSub mathrmTieTok cleaned then replaceAll mathrmTieTok [] cleaned
      else cleaned
    let cleaned := replaceAll emptyMathrm2Tok [] cleaned
    let cleaned := replaceAll emptyMathrmTok [] cleaned
    let cleaned := replaceAll "\\cong".toList ['='] cleaned
    let cleaned := replaceAll "\\simeq".toList ['='] cleaned
    let cleaned := replaceAll "\\approx".toList ['='] cleaned
    let cleaned := replaceAll "\\sim".toList ['='] cleaned
    let cleaned := replaceAll "\\cong".toList ['='] cleaned
    let cleaned := replaceAll "\\simeq".toList ['='] cleaned
    let cleaned := replaceAll "\\approx".toList ['='] cleaned
    let cleaned := reSub false subscriptWrapPat subscriptWrapRepl cleaned
    let cleaned := replaceAll caretStarBracedTok starSubTok cleaned
    let cleaned := replaceAll caretStarTok starSubTok cleaned
    let cleaned := replaceAll "\\text".toList [] cleaned
    let cleaned := replaceAll "\\mathrm".toList [] cleaned
    let cleaned := replaceAll "\\mathbf".toList [] cleaned
    let cleaned := replaceAll "\\mathsf".toList [] cleaned
    let cleaned := replaceAll "\\bold".toList [] cleaned
    let cleaned := replaceAll "\\left(".toList ['('] cleaned
    let cleaned := replaceAll "\\right)".toList [')'] cleaned
    let cleaned := replaceAll "\\left[".toList ['['] cleaned
    let cleaned := replaceAll "\\right]".toList [']'] cleaned
    let cleaned :=
      if startsWithL ['{', '{'] cleaned = true ∧
          startsWithL ['}', '}'] cleaned.reverse = true then
        ((cleaned.drop 2).dropLast).dropLast
      else cleaned
    let cleaned := heuristic_semantic_correction cleaned
    let cleaned := balance_parentheses cleaned
    stripWS cleaned

/-- The response record assembled by `recognize` (ocr_service.py lines
219-228); `processing_time_ms` is wall-clock measurement at the boundary and
is omitted, and the JSON-layer `round(confidence, 3)` display rounding (a
float-formatting concern at serialization) is not modelled. -/
structure RecResponse where
  expression : Str
  latex : Str
  refined_expression : Str
  raw_expression : Str
  validated : Bool
  confidence : ℚ
  llm_used : Bool

/-- The text-processing core of the `recognize` handler (ocr_service.py
lines 185-233), from the recognized raw markup onward: empty-result check
(400 error), structural cleaning, optional LLM standardization (trust 0.95),
the refined pass `validate_and_canonicalize`, the raw pass
(`balance_parentheses` then `fallback_validate`), the confidence adjustment,
and the response assembly.  `Except.ok` is the HTTP-200 `jsonify(response)`
path; `Except.error` carries the message and status of `error_response`. -/
def recognize_core (sympyAvailable : Bool) (llm : Str → Option Str)
    (parseL parseE : ParserFn) (latexResult : Str) : Except (Str × Nat) RecResponse :=
  if (stripWS latexResult).length = 0 then
    Except.error ("No equation detected in image".toList, 400)
  else
    let latexClean0 := clean_latex_output latexResult
    match llm latexClean0 with
    | some standardized =>
      let refined := validate_and_canonicalize sympyAvailable parseL parseE standardized
      let rawPass := fallback_validate sympyAvailable parseE
        (balance_parentheses standardized)
      let conf := adjust_confidence sympyAvailable refined.2 (19/20)
      Except.ok
        { expression := if refined.2 then refined.1 else rawPass.1
          latex := standardized
          refined_expression := refined.1
          raw_expression := rawPass.1
          validated := refined.2
          confidence := conf
          llm_used := true }
    | none =>
      let refined := validate_and_canonicalize sympyAvailable parseL parseE latexClean0
      let rawPass := fallback_validate sympyAvailable parseE
        (balance_parentheses latexClean0)
      let conf := adjust_confidence sympyAvailable refined.2 (estimate_confidence latexClean0)
      Except.ok
        { expression := if refined.2 then refined.1 else rawPass.1
          latex := latexClean0
          refined_expression := refined.1
          raw_expression := rawPass.1
          validated := refined.2
          confidence := conf
          llm_used := false }

/-- A parser that rejects everything (all tiers fail). -/
def pNone : ParserFn := fun _ => none

/-- An absent LLM standardizer. -/
def llmNone : Str → Option Str := fun _ => none

/-- A parser accepting every string, rendering it as `y`. -/
def pConstY : ParserFn := fun _ => some ⟨none, "y".toList⟩

/-- A structured parser accepting exactly `x**2`, rendering it verbatim. -/
def pOnlyXsq : ParserFn :=
  fun t => if t = "x**2".toList then some ⟨none, "x**2".toList⟩ else none

/-- A structured parser accepting exactly the string `\cdot`. -/
def pOnlyCdot : ParserFn :=
  fun t => if t = "\\cdot".toList then some ⟨none, "\\cdot".toList⟩ else none

/-- A parser accepting everything with the (balanced) rendering `{x_a}`. -/
def pBraceRender : ParserFn := fun _ => some ⟨none, "\x7bx_a\x7d".toList⟩

/-- An LLM standardizer returning the unbalanced string `((`. -/
def llmParens : Str → Option Str := fun _ => some "((".toList

/-- An LLM standardizer returning `a_b((`. -/
def llmUnderscore : Str → Option Str := fun _ => some "a_b((".toList

/-- A generic parser accepting exactly `a_b(())`, rendering `ww`. -/
def pOnlyAB : ParserFn :=
  fun t => if t = "a_b(())".toList then some ⟨none, "ww".toList⟩ else none

/-- C1 (amended).  `validated = true` implies one of the two parser
collaborators accepted one of the derived candidate strings (the
corrected-and-balanced string for the structured parser, or the deep-cleaned
or raw string after `^`→`**` substitution for the generic parser), and the
reported expression is the *reformatted rendering* of the parsed result —
not necessarily the accepted string itself. -/
theorem claim_C1_amended (avail : Bool) (parseL parseE : ParserFn) (s out : Str)
    (h : validate_and_canonicalize avail parseL parseE s = (out, true)) :
    ∃ e : SymExpr,
      (parseL (balance_parentheses (heuristic_semantic_correction s)) = some e ∧
        out = format_sympy_result e) ∨
      (parseE (replaceAll ['^'] "**".toList (deep_clean_math s)) = some e ∧
        out = replaceAll "**".toList ['^'] e.rendering) ∨
      (parseE (replaceAll ['^'] "**".toList s) = some e ∧
        out = replaceAll "**".toList ['^'] e.rendering) := by
  cases avail with
  | false =>
    unfold validate_and_canonicalize fallback_validate at h
    simp at h
  | true =>
    unfold validate_and_canonicalize at h
    rw [if_pos rfl] at h
    cases hp : parseL (balance_parentheses (heuristic_semantic_correction s)) with
    | some e =>
      simp only [hp, Prod.mk.injEq] at h
      exact ⟨e, Or.inl ⟨rfl, h.1.symm⟩⟩
    | none =>
      simp only [hp] at h
      unfold fallback_validate at h
      rw [if_pos rfl, if_pos rfl] at h
      cases hd : parseE (replaceAll ['^'] "**".toList (deep_clean_math s)) with
      | some e2 =>
        simp only [hd, Prod.mk.injEq] at h
        exact ⟨e2, Or.inr (Or.inl ⟨rfl, h.1.symm⟩)⟩
      | none =>
        simp only [hd] at h
        cases hr : parseE (replaceAll ['^'] "**".toList s) with
        | some e3 =>
          simp only [hr, Prod.mk.injEq] at h
          exact ⟨e3, Or.inr (Or.inr ⟨rfl, h.1.symm⟩)⟩
        | none =>
          simp only [hr, Prod.mk.injEq] at h
          exact absurd h.2 (by simp)

/-- Witness for the amended C1 at a concrete run: an accept-all structured
parser on input `x`. -/
theorem claim_C1_witness :
    ∃ e : SymExpr,
      (pConstY (balance_parentheses (heuristic_semantic_correction "x".toList)) = some e ∧
        "y".toList = format_sympy_result e) ∨
      (pNone (replaceAll ['^'] "**".toList (deep_clean_math "x".toList)) = some e ∧
        "y".toList = replaceAll "**".toList ['^'] e.rendering) ∨
      (pNone (replaceAll ['^'] "**".toList "x".toList) = some e ∧
        "y".toList = replaceAll "**".toList ['^'] e.rendering) :=
  claim_C1_amended true pConstY pNone "x".toList "y".toList (by decide)

/-- Counterexample to C1 as stated: with a structured parser accepting
exactly `x**2` (rendered verbatim) and a generic parser accepting nothing,
input `x**2` validates, but the reported expression `x^2` (the reformatted
rendering) is a string that *neither* parser collaborator accepts — no parser
ever saw the reported string. -/
theorem claim_C1_counterexample :
    validate_and_canonicalize true pOnlyXsq pNone "x**2".toList = ("x^2".toList, true) ∧
    pOnlyXsq "x^2".toList = none ∧ pNone "x^2".toList = none := by
  refine ⟨by decide, by decide, rfl⟩

/-- C3 (amended).  The Tiered Canonicalizer applies the Semantic Corrector
and the Bracket Balancer to the cleaned string *before* the first
(structured-parser) attempt, not after its failure; when that corrected
primary attempt fails, the next tier deep-cleans the original cleaned string
and consults the generic parser, with the raw string as last resort. -/
theorem claim_C3_amended (parseL parseE : ParserFn) (s : Str) :
    (∀ e, parseL (balance_parentheses (heuristic_semantic_correction s)) = some e →
      validate_and_canonicalize true parseL parseE s = (format_sympy_result e, true)) ∧
    (parseL (balance_parentheses (heuristic_semantic_correction s)) = none →
      validate_and_canonicalize true parseL parseE s =
        (match fallback_validate true parseE (deep_clean_math s) with
          | (canonical, true) => (canonical, true)
          | (_, false) => fallback_validate true parseE s)) := by
  constructor
  · intro e he
    unfold validate_and_canonicalize
    rw [if_pos rfl, he]
  · intro he
    unfold validate_and_canonicalize
    rw [if_pos rfl, he]

/-- Witness for the amended C3: an accept-all structured parser validates at
the primary tier with the reformatted rendering. -/
theorem claim_C3_witness :
    validate_and_canonicalize true pConstY pNone "x".toList =
      (format_sympy_result ⟨none, "y".toList⟩, true) :=
  (claim_C3_amended pConstY pNone "x".toList).1 ⟨none, "y".toList⟩ (by decide)

/-- Counterexample to C3 as stated: the primary attempt does *not* hand the
cleaned string unmodified to the structured parser.  On the cleaned string
`\cdot` the string actually handed over is `*`, and a structured parser that
accepts exactly the cleaned string `\cdot` fails to validate it. -/
theorem claim_C3_counterexample :
    balance_parentheses (heuristic_semantic_correction "\\cdot".toList) ≠
      "\\cdot".toList ∧
    (validate_and_canonicalize true pOnlyCdot pNone "\\cdot".toList).2 = false := by
  refine ⟨by decide, by decide⟩

/-- Structural description of every successful `recognize` response: how each
field is computed from the cleaned (possibly LLM-standardized) string. -/
theorem recognize_core_fields (avail : Bool) (llm : Str → Option Str)
    (parseL parseE : ParserFn) (raw : Str) (r : RecResponse)
    (hok : recognize_core avail llm parseL parseE raw = Except.ok r) :
    r.validated = (validate_and_canonicalize avail parseL parseE r.latex).2 ∧
    r.refined_expression = (validate_and_canonicalize avail parseL parseE r.latex).1 ∧
    r.raw_expression = (fallback_validate avail parseE (balance_parentheses r.latex)).1 ∧
    r.expression = (if r.validated then r.refined_expression else r.raw_expression) ∧
    r.confidence = adjust_confidence avail r.validated
      (if r.llm_used then (19/20 : ℚ) else estimate_confidence r.latex) ∧
    (r.llm_used = false → r.latex = clean_latex_output raw) := by
  unfold recognize_core at hok
  by_cases hemp : (stripWS raw).length = 0
  · rw [if_pos hemp] at hok
    exact absurd hok (by simp)
  · rw [if_neg hemp] at hok
    cases hl : llm (clean_latex_output raw) with
    | some std =>
      simp only [hl] at hok
      injection hok with h
      subst h
      refine ⟨rfl, rfl, rfl, rfl, rfl, ?_⟩
      intro h
      exact absurd h (by simp)
    | none =>
      simp only [hl] at hok
      injection hok with h
      subst h
      exact ⟨rfl, rfl, rfl, rfl, rfl, fun _ => rfl⟩

/-- C4 (amended).  The balanced-brackets invariant holds for the terminal
expression precisely on the no-parser-accepted path: when no parser accepts
anything and the refined pass is unvalidated, the reported expression is the
bracket-balanced cleaned string, hence has equal open/close counts for every
bracket kind.  (Success-tier expressions are reformatted parser renderings
and are *not* re-balanced — see the counterexample.) -/
theorem claim_C4_amended (avail : Bool) (llm : Str → Option Str)
    (parseL parseE : ParserFn) (raw : Str) (r : RecResponse)
    (hok : recognize_core avail llm parseL parseE raw = Except.ok r)
    (hval : r.validated = false) (hpE : ∀ t, parseE t = none) :
    countC '(' r.expression = countC ')' r.expression ∧
    countC '[' r.expression = countC ']' r.expression ∧
    countC '{' r.expression = countC '}' r.expression := by
  obtain ⟨_, _, hraw, hexp, _, _⟩ := recognize_core_fields avail llm parseL parseE raw r hok
  have hfb : fallback_validate avail parseE (balance_parentheses r.latex) =
      (balance_parentheses r.latex, false) := by
    unfold fallback_validate
    cases avail
    · simp
    · simp [hpE]
  have hexp2 : r.expression = balance_parentheses r.latex := by
    rw [hexp, hval, hraw, hfb]
    simp
  rw [hexp2]
  have h1 : closeOf '(' = ')' := by decide
  have h2 : closeOf '[' = ']' := by decide
  have h3 : closeOf '{' = '}' := by decide
  refine ⟨?_, ?_, ?_⟩
  · have := balance_counts '(' (by decide) r.latex
    rwa [h1] at this
  · have := balance_counts '[' (by decide) r.latex
    rwa [h2] at this
  · have := balance_counts '{' (by decide) r.latex
    rwa [h3] at this

/-- Counterexample to C4 as stated: at the tier where the structured parser's
rendering is reformatted and reported, nothing re-balances the result.  With
a parser whose (perfectly balanced) rendering is `{x_a}`, the subscript
artifact stripping of `format_sympy_result` swallows the closing brace: the
validated terminal expression is `{xa` with one `{` and no `}`. -/
theorem claim_C4_counterexample :
    (validate_and_canonicalize true pBraceRender pNone "x".toList).2 = true ∧
    countC '{' (validate_and_canonicalize true pBraceRender pNone "x".toList).1 = 1 ∧
    countC '}' (validate_and_canonicalize true pBraceRender pNone "x".toList).1 = 0 := by
  refine ⟨by decide, by decide, by decide⟩

/-- Witness for the amended C4 at the concrete all-parsers-fail run on `x`. -/
theorem claim_C4_witness :
    ∃ r, recognize_core true llmNone pNone pNone "x".toList = Except.ok r ∧
      (countC '(' r.expression = countC ')' r.expression ∧
        countC '[' r.expression = countC ']' r.expression ∧
        countC '{' r.expression = countC '}' r.expression) := by
  refine ⟨_, rfl, ?_⟩
  exact claim_C4_amended true llmNone pNone pNone "x".toList _ rfl (by decide)
    (fun _ => rfl)

/-- C5 (amended).  When every parser attempt fails (and the standardizer is
absent), the request still succeeds at the HTTP level (`Except.ok`, the
200-`jsonify` path): the canonicalizer's terminal result is the cleaned
string itself with `validated = false`, and the reported `expression` is the
bracket-balanced cleaned string — which equals the cleaned string, because
the Structural Cleaner's output is already balanced.  (When the optional LLM
standardizer *is* used, the reported expression is the re-balanced
standardized string, which can differ from it — see the counterexample.) -/
theorem claim_C5_amended (avail : Bool) (llm : Str → Option Str)
    (parseL parseE : ParserFn) (raw : Str)
    (hllm : ∀ t, llm t = none) (hpL : ∀ t, parseL t = none) (hpE : ∀ t, parseE t = none)
    (hne : ¬ (stripWS raw).length = 0) :
    ∃ r, recognize_core avail llm parseL parseE raw = Except.ok r ∧
      r.validated = false ∧ r.refined_expression = clean_latex_output raw ∧
      r.expression = clean_latex_output raw ∧ r.latex = clean_latex_output raw := by
  have hfb : ∀ x, fallback_validate avail parseE x = (x, false) := by
    intro x
    unfold fallback_validate
    cases avail
    · simp
    · simp [hpE]
  have hvc : ∀ x, validate_and_canonicalize avail parseL parseE x = (x, false) := by
    intro x
    unfold validate_and_canonicalize
    cases avail
    · simp [hfb]
    · simp [hpL, hfb]
  have hbal : balance_parentheses (clean_latex_output raw) = clean_latex_output raw := by
    by_cases h : raw = []
    · subst h; rfl
    · unfold clean_latex_output
      rw [if_neg h]
      exact balance_stripWS_balance _
  unfold recognize_core
  rw [if_neg hne]
  simp only [hllm]
  refine ⟨_, rfl, ?_, ?_, ?_, rfl⟩
  · simp [hvc]
  · simp [hvc]
  · simp [hvc, hfb, hbal]

/-- Witness for the amended C5 at the concrete all-parsers-fail run on `x`. -/
theorem claim_C5_witness :
    ∃ r, recognize_core true llmNone pNone pNone "x".toList = Except.ok r ∧
      r.validated = false ∧ r.refined_expression = clean_latex_output "x".toList ∧
      r.expression = clean_latex_output "x".toList ∧
      r.latex = clean_latex_output "x".toList :=
  claim_C5_amended true llmNone pNone pNone "x".toList (fun _ => rfl) (fun _ => rfl)
    (fun _ => rfl) (by decide)

/-- Counterexample to C5 as stated: when every tier fails but the cleaned
string came from the LLM standardizer, the reported expression is the
*re-balanced* cleaned string `(())`, not the cleaned string `((` itself. -/
theorem claim_C5_counterexample :
    ∃ r, recognize_core true llmParens pNone pNone "x".toList = Except.ok r ∧
      r.validated = false ∧ r.latex = "((".toList ∧ r.expression = "(())".toList := by
  refine ⟨_, rfl, by decide, by decide, by decide⟩

/-- C7 (amended).  After the Tiered Canonicalizer runs: if validated, the
confidence is increased by exactly 0.1 clamped at 1.0; if not validated *and
the symbolic library is available*, it is decreased by exactly 0.15 clamped
at 0.0; if the library is unavailable the unvalidated confidence is left
unchanged (the `elif SYMPY_AVAILABLE` guard at line 216). -/
theorem claim_C7_amended (avail : Bool) (llm : Str → Option Str)
    (parseL parseE : ParserFn) (raw : Str) (r : RecResponse)
    (hok : recognize_core avail llm parseL parseE raw = Except.ok r) :
    (r.validated = true → r.confidence =
      min 1 ((if r.llm_used then (19/20 : ℚ) else estimate_confidence r.latex) + 1/10)) ∧
    (r.validated = false → avail = true → r.confidence =
      max 0 ((if r.llm_used then (19/20 : ℚ) else estimate_confidence r.latex) - 3/20)) ∧
    (r.validated = false → avail = false → r.confidence =
      (if r.llm_used then (19/20 : ℚ) else estimate_confidence r.latex)) := by
  obtain ⟨_, _, _, _, hconf, _⟩ := recognize_core_fields avail llm parseL parseE raw r hok
  refine ⟨?_, ?_, ?_⟩
  · intro hv
    rw [hconf, hv]
    unfold adjust_confidence
    simp
  · intro hv ha
    rw [hconf, hv, ha]
    unfold adjust_confidence
    simp
  · intro hv ha
    rw [hconf, hv, ha]
    unfold adjust_confidence
    simp

/-- Witness for the amended C7 at a concrete validated run. -/
theorem claim_C7_witness :
    ∃ r, recognize_core true llmNone pConstY pNone "x".toList = Except.ok r ∧
      r.confidence = min 1 ((if r.llm_used then (19/20 : ℚ)
        else estimate_confidence r.latex) + 1/10) := by
  refine ⟨_, rfl, ?_⟩
  exact (claim_C7_amended true llmNone pConstY pNone "x".toList _ rfl).1 (by decide)

/-- Counterexample to C7 as stated: when the symbolic library is unavailable
(`SYMPY_AVAILABLE = False`), an unvalidated confidence is *not* decreased by
0.15 — it is left unchanged. -/
theorem claim_C7_counterexample :
    adjust_confidence false false (9/10) = 9/10 ∧
    adjust_confidence false false (9/10) ≠ max 0 ((9/10 : ℚ) - 3/20) := by
  constructor
  · rfl
  · intro h
    rw [show adjust_confidence false false (9/10) = (9/10 : ℚ) from rfl] at h
    norm_num at h

/-- C10.  The success response reports `refined_expression` as `expression`
exactly when `validated` is true and the raw-pass result otherwise; in
particular, when the refined pass fails but the raw pass's permissive parse
succeeds, the reported expression is the raw pass's parsed canonical string
(the rendering with `**` restored to `^`) while `validated` stays false. -/
theorem claim_C10_expression_choice (avail : Bool) (llm : Str → Option Str)
    (parseL parseE : ParserFn) (raw : Str) (r : RecResponse)
    (hok : recognize_core avail llm parseL parseE raw = Except.ok r) :
    r.expression = (if r.validated then r.refined_expression else r.raw_expression) ∧
    (r.validated = false → avail = true →
      ∀ e, parseE (replaceAll ['^'] "**".toList (balance_parentheses r.latex)) = some e →
        r.expression = replaceAll "**".toList ['^'] e.rendering) := by
  obtain ⟨_, _, hraw, hexp, _, _⟩ := recognize_core_fields avail llm parseL parseE raw r hok
  refine ⟨hexp, ?_⟩
  intro hv ha e he
  rw [hexp, hv]
  simp only [Bool.false_eq_true, if_false]
  rw [hraw, ha]
  unfold fallback_validate
  rw [if_pos rfl, he]

/-- Witness for C10 at a concrete run: the LLM standardizer supplies
`a_b((`, the refined pass fails, the raw pass parses the balanced
`a_b(())` as `ww`, and the response reports `ww` with `validated = false`. -/
theorem claim_C10_witness :
    ∃ r, recognize_core true llmUnderscore pNone pOnlyAB "x".toList = Except.ok r ∧
      r.expression = (if r.validated then r.refined_expression else r.raw_expression) ∧
      r.validated = false ∧ r.expression = "ww".toList := by
  refine ⟨_, rfl, ?_, by decide, by decide⟩
  exact (claim_C10_expression_choice true llmUnderscore pNone pOnlyAB "x".toList
    _ rfl).1

/-- A successful pattern match consumes a prefix of the input. -/
theorem matchItems_decomp (ci : Bool) (items : List PItem) :
    ∀ (prev : Option Char) (s co r : Str) (caps : List Str),
      matchItems ci items prev s = some (co, r, caps) → co ++ r = s := by
  induction items with
  | nil =>
    intro prev s co r caps h
    simp only [matchItems, Option.some.injEq, Prod.mk.injEq] at h
    rw [← h.1, ← h.2.1]
    rfl
  | cons it its ih =>
    intro prev s co r caps h
    cases it with
    | simple si =>
      simp only [matchItems] at h
      cases hm : matchSimple ci [si] prev s with
      | none => simp [hm] at h
      | some pr =>
        obtain ⟨co1, r1⟩ := pr
        simp only [hm] at h
        cases hm2 : matchItems ci its (lastOr prev co1) r1 with
        | none => simp [hm2] at h
        | some pr2 =>
          obtain ⟨co2, r2, caps2⟩ := pr2
          simp only [hm2, Option.some.injEq, Prod.mk.injEq] at h
          rw [← h.1, ← h.2.1, List.append_assoc, ih _ _ co2 r2 caps2 hm2,
            matchSimple_decomp ci [si] prev s co1 r1 hm]
    | grp sub =>
      simp only [matchItems] at h
      cases hm : matchSimple ci sub prev s with
      | none => simp [hm] at h
      | some pr =>
        obtain ⟨co1, r1⟩ := pr
        simp only [hm] at h
        cases hm2 : matchItems ci its (lastOr prev co1) r1 with
        | none => simp [hm2] at h
        | some pr2 =>
          obtain ⟨co2, r2, caps2⟩ := pr2
          simp only [hm2, Option.some.injEq, Prod.mk.injEq] at h
          rw [← h.1, ← h.2.1, List.append_assoc, ih _ _ co2 r2 caps2 hm2,
            matchSimple_decomp ci sub prev s co1 r1 hm]

/-- The fuelled `re.sub` scan is fuel-insensitive once the fuel reaches the
input length: the fuelled definition coincides with Python's unfuelled
left-to-right scan. -/
theorem reSubF_fuel (ci : Bool) (items : List PItem) (repl : List RPart) :
    ∀ (fuel1 fuel2 : Nat) (prev : Option Char) (s : Str),
      s.length ≤ fuel1 → s.length ≤ fuel2 →
      reSubF ci items repl fuel1 prev s = reSubF ci items repl fuel2 prev s := by
  intro fuel1
  induction fuel1 with
  | zero =>
    intro fuel2 prev s h1 _h2
    have hs : s = [] := List.eq_nil_of_length_eq_zero (Nat.le_zero.1 h1)
    subst hs
    cases fuel2 <;> rfl
  | succ f1 ih =>
    intro fuel2 prev s h1 h2
    cases s with
    | nil => cases fuel2 <;> rfl
    | cons c rest =>
      cases fuel2 with
      | zero => exact absurd h2 (by simp)
      | succ f2 =>
        have hrest : rest.length ≤ f1 ∧ rest.length ≤ f2 := by
          simp only [List.length_cons] at h1 h2
          omega
        simp only [reSubF]
        cases hm : matchItems ci items prev (c :: rest) with
        | none => exact congrArg (c :: ·) (ih f2 (some c) rest hrest.1 hrest.2)
        | some pr =>
          obtain ⟨co, r2, caps⟩ := pr
          by_cases hco : co.isEmpty = true
          · simp only [hco, if_pos]
            exact congrArg (c :: ·) (ih f2 (some c) rest hrest.1 hrest.2)
          · simp only [hco, if_neg, Bool.not_eq_true]
            have hdec := matchItems_decomp ci items prev (c :: rest) co r2 caps hm
            have hlen : co.length + r2.length = rest.length + 1 := by
              rw [← List.length_append, hdec, List.length_cons]
            have hcopos : 0 < co.length := by
              cases co with
              | nil => simp [List.isEmpty] at hco
              | cons a b => simp
            exact congrArg (expandRepl repl caps ++ ·)
              (ih f2 (lastOr prev co) r2 (by omega) (by omega))

/-- The fuelled `str.replace` is fuel-insensitive once the fuel reaches the
input length. -/
theorem replaceAllF_fuel (pat repl : Str) :
    ∀ (fuel1 fuel2 : Nat) (s : Str), s.length ≤ fuel1 → s.length ≤ fuel2 →
      replaceAllF pat repl fuel1 s = replaceAllF pat repl fuel2 s := by
  intro fuel1
  induction fuel1 with
  | zero =>
    intro fuel2 s h1 _h2
    have hs : s = [] := List.eq_nil_of_length_eq_zero (Nat.le_zero.1 h1)
    subst hs
    cases fuel2 <;> rfl
  | succ f1 ih =>
    intro fuel2 s h1 h2
    cases s with
    | nil => cases fuel2 <;> rfl
    | cons c rest =>
      cases fuel2 with
      | zero => exact absurd h2 (by simp)
      | succ f2 =>
        have hrest : rest.length ≤ f1 ∧ rest.length ≤ f2 := by
          simp only [List.length_cons] at h1 h2
          omega
        simp only [replaceAllF]
        by_cases hp : pat ≠ [] ∧ startsWithL pat (c :: rest) = true
        · rw [if_pos hp, if_pos hp]
          have hplen : 0 < pat.length := List.length_pos.2 hp.1
          have hdlen : ((c :: rest).drop pat.length).length ≤ f1 ∧
              ((c :: rest).drop pat.length).length ≤ f2 := by
            simp only [List.length_drop, List.length_cons]
            omega
          exact congrArg (repl ++ ·) (ih f2 _ hdlen.1 hdlen.2)
        · rw [if_neg hp, if_neg hp]
          exact congrArg (c :: ·) (ih f2 rest hrest.1 hrest.2)

/-- The fuelled `str.split` is fuel-insensitive once the fuel reaches the
input length. -/
theorem splitOnSubF_fuel (sep : Str) :
    ∀ (fuel1 fuel2 : Nat) (s : Str), s.length ≤ fuel1 → s.length ≤ fuel2 →
      splitOnSubF sep fuel1 s = splitOnSubF sep fuel2 s := by
  intro fuel1
  induction fuel1 with
  | zero =>
    intro fuel2 s h1 _h2
    have hs : s = [] := List.eq_nil_of_length_eq_zero (Nat.le_zero.1 h1)
    subst hs
    cases fuel2 <;> rfl
  | succ f1 ih =>
    intro fuel2 s h1 h2
    cases s with
    | nil => cases fuel2 <;> rfl
    | cons c rest =>
      cases fuel2 with
      | zero => exact absurd h2 (by simp)
      | succ f2 =>
        have hrest : rest.length ≤ f1 ∧ rest.length ≤ f2 := by
          simp only [List.length_cons] at h1 h2
          omega
        simp only [splitOnSubF]
        by_cases hp : sep ≠ [] ∧ startsWithL sep (c :: rest) = true
        · rw [if_pos hp, if_pos hp]
          have hplen : 0 < sep.length := List.length_pos.2 hp.1
          have hdlen : ((c :: rest).drop sep.length).length ≤ f1 ∧
              ((c :: rest).drop sep.length).length ≤ f2 := by
            simp only [List.length_drop, List.length_cons]
            omega
          rw [ih f2 _ hdlen.1 hdlen.2]
        · rw [if_neg hp, if_neg hp]
          rw [ih f2 rest hrest.1 hrest.2]

/-- The fuelled wrapper-removal loop is fuel-insensitive once the fuel
exceeds the string length: together with `claim_C6_loop_termination` it
models the `while True` loop exactly. -/
theorem unwrapLoopFuel_stable (keep : Bool) (cmd : Str) :
    ∀ (fuel1 fuel2 : Nat) (s : Str), s.length < fuel1 → s.length < fuel2 →
      unwrapLoopFuel keep cmd fuel1 s = unwrapLoopFuel keep cmd fuel2 s := by
  intro fuel1
  induction fuel1 with
  | zero => intro fuel2 s h1 _h2; omega
  | succ f1 ih =>
    intro fuel2 s h1 h2
    cases fuel2 with
    | zero => omega
    | succ f2 =>
      simp only [unwrapLoopFuel]
      cases hstep : unwrapStep keep cmd s with
      | none => rfl
      | some t =>
        have := unwrapStep_shrink keep cmd s t hstep
        exact ih f2 t (by omega) (by omega)
